import Mathlib

/-!
Verification of the temporal-memory subsystem of the LLaVA-NeXT long-video
extension.  The development shallowly embeds, in exact arithmetic:

* the temporal segmentation algorithms of
  `llava/model/memory_module/segment.py` (`cal_depth_score`, `segment`,
  `adjusted_segment`), parametrised by the list of adjacent-frame cosine
  similarities (the only irrational step of the pipeline; every theorem
  quantifies over an arbitrary rational similarity list, and every concrete
  input used below is realisable by actual rational feature vectors);
* the recurrent memory transformer `TransformerProjector.forward` of
  `llava/model/memory_module/recurrent_memory.py`, at the level of its
  control flow and NaN propagation (tensors are abstracted by whether they
  contain a NaN; every tensor operation used by the module maps NaN inputs
  to NaN outputs in IEEE arithmetic, which is what the abstraction encodes);
* the text/image embedding fusion and query extraction of
  `llava/model/llava_arch.py` (`prepare_inputs_labels_for_multimodal`,
  `extract_user_query_tokens`, `uniform_sample_frames`);
* the one-second frame sampling of the feature-extraction CLI
  `llava/model/memory_module/feature_extract.py`.
-/

namespace Seg

/-- The peak scan inside `cal_depth_score` (`segment.py`, lines 8-21): starting
from the similarity at the current index, walk outward while the next
similarity is `≥` the running peak, and stop at the first strict decrease. -/
def scanPeak (cur : ℚ) : List ℚ → ℚ
  | [] => cur
  | x :: xs => if cur ≤ x then scanPeak x xs else cur

/-- Model of `cal_depth_score(sim_scores)` (`segment.py`, lines 3-24): the depth score at
`i` is `lpeak + rpeak - 2 * sim_scores[i]`, where `lpeak` scans left from `i`
and `rpeak` scans right. -/
def cal_depth_score (sims : List ℚ) : List ℚ :=
  (List.range sims.length).map (fun i =>
    scanPeak (sims.getD i 0) ((sims.take i).reverse)
      + scanPeak (sims.getD i 0) (sims.drop (i + 1))
      - 2 * sims.getD i 0)

/-- Arithmetic mean of a list, as computed by `torch.std_mean` (`0/0 = 0` on
the empty list, where torch would produce NaN; no claim touches that case). -/
def mean (l : List ℚ) : ℚ := l.sum / l.length

/-- Sum of squared deviations from the mean; `torch.std_mean`'s unbiased
standard deviation is `sqrt (sqDevSum l / (l.length - 1))`. -/
def sqDevSum (l : List ℚ) : ℚ := (l.map (fun x => (x - mean l) ^ 2)).sum

/-- Exact-arithmetic rendering of the selection test
`depth_scores > mean + 0.5 * std` (`segment.py`, lines 41-43) with torch's
unbiased standard deviation: for `σ ≥ 0`, `d > μ + σ/2` iff
`d - μ > 0` and `4·(n-1)·(d-μ)² > Σ(x-μ)²`.  For `n = 1` torch's `std` is
NaN and the comparison is false; here `n - 1 = 0` makes the second conjunct
false, matching that behaviour.  The equivalence with the `sqrt` form is
proved in `C5_threshold_selection`. -/
def exceedsThresh (l : List ℚ) (d : ℚ) : Bool :=
  decide (mean l < d) &&
    decide (sqDevSum l < (d - mean l) ^ 2 * (4 * ((l.length : ℚ) - 1)))

/-- Model of `condition.nonzero().squeeze(-1)` for `condition = depth_scores > thresh`
(`segment.py`, lines 43-44): the ascending list of indices passing the
threshold test. -/
def threshIndices (depths : List ℚ) : List ℕ :=
  (List.range depths.length).filter (fun i => exceedsThresh depths (depths.getD i 0))

/-- Ordering used to model `torch.topk`: larger depth score first, ties broken
by smaller index (a deterministic refinement of torch's unspecified tie
order; the theorems only use tie-insensitive consequences). -/
def topkRel (depths : List ℚ) (i j : ℕ) : Bool :=
  decide (depths.getD j 0 < depths.getD i 0) ||
    (decide (depths.getD i 0 = depths.getD j 0) && decide (i ≤ j))

/-- Model of `torch.topk(depth_scores, k).indices`: the `k` indices with the largest
depth scores. -/
def topkIndices (depths : List ℚ) (k : ℕ) : List ℕ :=
  ((List.range depths.length).mergeSort (topkRel depths)).take k

/-- Ascending sort of a list of indices, as in `.sort()[0]`. -/
def ascSort (l : List ℕ) : List ℕ := l.mergeSort (fun a b => decide (a ≤ b))

/-- Boundary selection in the default (`k = None`) mode shared by `segment`
and `adjusted_segment` (`segment.py`, lines 41-46 and 81-86): threshold
selection, falling back to the top 15 by depth score (sorted ascending) when
more than 15 indices pass. -/
def selectBoundaries (depths : List ℚ) : List ℕ :=
  let cands := threshIndices depths
  if 15 < cands.length then ascSort (topkIndices depths 15) else cands

/-- Python's `sorted(set(boundaries))` (`segment.py`, line 53). -/
def sortDedup (l : List ℕ) : List ℕ := ascSort l.dedup

/-- Lines 50-51 of `segment.py`: append `T` unless the list is non-empty and
already ends with `T - 1` (the `type(boundaries) == int` disjunct is dead in
this flow: `tolist()` of a 1-d tensor is always a list). -/
def appendFinal (T : ℕ) (l : List ℕ) : List ℕ :=
  if l = [] ∨ l.getLast? ≠ some (T - 1) then l ++ [T] else l

/-- Model of `segment(features)` (`segment.py`, lines 27-55) with the default
`alpha = 0.5`, `k = None`, parametrised by the length `T` of the feature
sequence and by the list `sims` of the `T - 1` adjacent-frame cosine
similarities computed on line 33. -/
def segment (T : ℕ) (sims : List ℚ) : List ℕ :=
  if T = 1 then [0]
  else sortDedup (appendFinal T (selectBoundaries (cal_depth_score sims)))

end Seg

namespace Seg

/-- Python's `round`: round half to even (used for the evenly spaced extra
boundaries on line 113 of `segment.py`). -/
def pyRound (x : ℚ) : ℤ :=
  if Int.fract x < 1 / 2 then ⌊x⌋
  else if 1 / 2 < Int.fract x then ⌊x⌋ + 1
  else if ⌊x⌋ % 2 = 0 then ⌊x⌋ else ⌊x⌋ + 1

/-- Ascending sort of a list of integers, modelling `sorted(...)`. -/
def ascSortZ (l : List ℤ) : List ℤ := l.mergeSort (fun a b => decide (a ≤ b))

/-- Python's `sorted(set(boundaries))` over integers (`segment.py`, line 97). -/
def sortDedupZ (l : List ℤ) : List ℤ := ascSortZ l.dedup

/-- Lines 90-97 of `segment.py` (`adjusted_segment`): append the final
boundary `T` when missing, prepend `0` when missing, then sort and
deduplicate.  Input: the selected candidate indices; output: the raw
boundary list handed to the spacing adjustment. -/
def adjPrepare (T : ℕ) (cands : List ℕ) : List ℤ :=
  let bs0 : List ℤ := cands.map (fun n => (n : ℤ))
  let bs1 := if bs0 = [] ∨ bs0.getLast? ≠ some (T : ℤ) then bs0 ++ [(T : ℤ)] else bs0
  let bs2 := if bs1.headI ≠ 0 then 0 :: bs1 else bs1
  sortDedupZ bs2

/-- The inner insertion loop of `adjusted_segment` (lines 109-116): insert up
to `X` evenly spaced boundaries between `start` and the candidate `b`, each
kept only when it exceeds the currently last accepted boundary and stays
below `b`.  The accumulator is the adjusted list in reverse (newest first). -/
def insertLoop (start b gap : ℤ) (X : ℕ) (rev : List ℤ) : List ℤ :=
  (List.range X).foldl
    (fun r (i : ℕ) =>
      let nb := start + pyRound ((gap : ℚ) * (((i : ℕ) : ℚ) + 1) / ((X : ℚ) + 1))
      if r.headI < nb ∧ nb < b then nb :: r else r) rev

/-- One iteration of the middle loop of `adjusted_segment` (lines 102-118):
drop candidates closer than `minD` to the last accepted boundary, fill gaps
larger than `maxD` with `⌊gap / maxD⌋` inserted boundaries, then accept the
candidate. -/
def adjStep (minD maxD : ℤ) (rev : List ℤ) (b : ℤ) : List ℤ :=
  let gap := b - rev.headI
  if gap < minD then rev
  else
    let rev2 := if maxD < gap then insertLoop rev.headI b gap (gap / maxD).toNat rev else rev
    b :: rev2

/-- The final-boundary handling of `adjusted_segment` (lines 119-129): append
the last raw boundary when it is at least `minD` away, otherwise merge it
into the previous accepted boundary (only possible when at least two
boundaries were accepted). -/
def adjFinal (minD : ℤ) (last : ℤ) (rev : List ℤ) : List ℤ :=
  let gap := last - rev.headI
  if minD ≤ gap then last :: rev
  else if 2 ≤ rev.length then last :: rev.tail
  else rev

/-- Model of `adjusted_segment(features)` (`segment.py`, lines 57-132) with the default
`alpha = 0.5`, `k = None`, `min_distance = 32`, `max_distance = 50`,
parametrised like `segment` by the frame count `T` and the similarity list. -/
def adjusted_segment (T : ℕ) (sims : List ℚ) : List ℤ :=
  if T = 1 then [0]
  else
    let boundaries := adjPrepare T (selectBoundaries (cal_depth_score sims))
    let middle := (boundaries.drop 1).dropLast
    (adjFinal 32 boundaries.getLastI (middle.foldl (adjStep 32 50) [boundaries.headI])).reverse

/-- Provenance of a boundary in the adjusted list: accepted candidate (also
used for the leading `0`), inserted filler, or the final boundary written by
the end-of-sequence merge. -/
inductive Origin
  | cand
  | ins
  | merged
deriving DecidableEq

instance : Inhabited Origin := ⟨Origin.cand⟩

/-- Variant of `insertLoop` instrumented with provenance tags. -/
def insertLoopT (start b gap : ℤ) (X : ℕ) (rev : List (ℤ × Origin)) : List (ℤ × Origin) :=
  (List.range X).foldl
    (fun r (i : ℕ) =>
      let nb := start + pyRound ((gap : ℚ) * (((i : ℕ) : ℚ) + 1) / ((X : ℚ) + 1))
      if r.headI.1 < nb ∧ nb < b then (nb, Origin.ins) :: r else r) rev

/-- Variant of `adjStep` instrumented with provenance tags. -/
def adjStepT (minD maxD : ℤ) (rev : List (ℤ × Origin)) (b : ℤ) : List (ℤ × Origin) :=
  let gap := b - rev.headI.1
  if gap < minD then rev
  else
    let rev2 := if maxD < gap then insertLoopT rev.headI.1 b gap (gap / maxD).toNat rev else rev
    (b, Origin.cand) :: rev2

/-- Variant of `adjFinal` instrumented with provenance tags. -/
def adjFinalT (minD : ℤ) (last : ℤ) (rev : List (ℤ × Origin)) : List (ℤ × Origin) :=
  let gap := last - rev.headI.1
  if minD ≤ gap then (last, Origin.cand) :: rev
  else if 2 ≤ rev.length then (last, Origin.merged) :: rev.tail
  else rev

/-- Variant of `adjusted_segment` instrumented with provenance tags; erasing the tags
recovers `adjusted_segment` (proved in `C4` below). -/
def adjustedTagged (T : ℕ) (sims : List ℚ) : List (ℤ × Origin) :=
  if T = 1 then [(0, Origin.cand)]
  else
    let boundaries := adjPrepare T (selectBoundaries (cal_depth_score sims))
    let middle := (boundaries.drop 1).dropLast
    (adjFinalT 32 boundaries.getLastI
      (middle.foldl (adjStepT 32 50) [(boundaries.headI, Origin.cand)])).reverse

end Seg

namespace RMT

/-- NaN-taint abstraction of `TransformerProjector`
(`recurrent_memory.py`): a tensor is abstracted by whether it contains a
NaN (`true` = contains a NaN).  Every tensor operation the module applies
(linear projection, scaled dot-product, softmax, dropout, residual
addition, layer norm, concatenation, reshape) maps any NaN in an input
tensor to a NaN in its output in IEEE float arithmetic, so taint is
propagated through each modelled operation.  `paramsNaN` is the joint
taint of all learned weights; `initMemNaN` the taint of
`initial_memory`; `depth` the number of transformer layers. -/
structure TP where
  paramsNaN : Bool
  initMemNaN : Bool
  depth : ℕ

/-- Taint of `Attention.forward` (`recurrent_memory.py`, lines 68-131):
query/key/value projections, scaled softmax attention and the residual
block all propagate NaNs from the parameters, the hidden states and the
key/value source. -/
def attnNaN (params q kv : Bool) : Bool := params || q || kv

/-- Taint of `TransformerLayer.forward` in the self-attention-only mode used
by `TransformerProjector.forward` (`kv_hidden_states = None`): self-attention
followed by the feed-forward residual block. -/
def layerNaN (params h : Bool) : Bool := params || h

/-- Taint of `_update_memory_tokens_with_cache` (lines 228-265): identity on
an empty cache, otherwise one cross-attention step whose key/value source is
the concatenation of all cached memories. -/
def updateMemoryWithCache (tp : TP) (cache : List Bool) (cur : Bool) : Bool :=
  if cache.length = 0 then cur
  else attnNaN tp.paramsNaN cur (cache.any id)

/-- The working memory of one forward call (`forward`, steps 1-2, lines
287-298): `initial_memory` on the first call, else the last cache entry,
refreshed by cross-attention against the whole cache when it holds more than
one entry.  (The NaN check guarding the first branch is part of `forward`
below, not of this value.) -/
def workingMemory (tp : TP) (cache : List Bool) : Bool :=
  let cur0 := if cache.isEmpty then tp.initMemNaN else cache.getLastI
  if 1 < cache.length then updateMemoryWithCache tp cache cur0 else cur0

/-- The self-attention output of one forward call (steps 3-4, lines 300-320):
the concatenation of the working memory with the chunk features, passed
through `depth` self-attention transformer layers. -/
def hiddenStateNaN (tp : TP) (cache : List Bool) (x : Bool) : Bool :=
  (List.range tp.depth).foldl (fun h _ => layerNaN tp.paramsNaN h)
    (workingMemory tp cache || x)

/-- Model of `TransformerProjector.forward` (lines 267-334) at the taint level.
`none` models raising `ValueError` (the NaN checks on lines 290-291 and
322-323); on success the result is the new memory tokens together with the
updated `memory_cache`, to which the new memory state is appended (line
331). -/
def forward (tp : TP) (cache : List Bool) (x : Bool) : Option (Bool × List Bool) :=
  if cache.isEmpty ∧ tp.initMemNaN then none
  else
    let hidden := hiddenStateNaN tp cache x
    if hidden then none
    else some (hidden, cache ++ [hidden])

/-- N sequential forward calls without reset: thread the cache through
`forward`, aborting on the first failure. -/
def runForward (tp : TP) : List Bool → List Bool → Option (List Bool)
  | cache, [] => some cache
  | cache, x :: xs =>
    match forward tp cache x with
    | none => none
    | some (_, c) => runForward tp c xs

end RMT

namespace Arch

/-- Image-placeholder token ID.  The numeric constant lives in
`llava/constants.py`, outside this excerpt; its value is fixed by the spec
(protocol literal `-200`, "<image>") and by the local redefinition on line
498 of `llava_arch.py`. -/
def IMAGE_TOKEN_INDEX : ℤ := -200

/-- End-of-turn marker ID (`<|im_end|>`), fixed on line 497 of
`llava_arch.py`. -/
def IM_END_TOKEN_ID : ℤ := 151645

/-- Ignore-label sentinel.  The constant lives in `llava/constants.py`,
outside this excerpt; the spec fixes it only as a reserved integer distinct
from any valid label, and no claim depends on the value, so the conventional
`-100` is used. -/
def IGNORE_INDEX : ℤ := -100

/-- Index of the first occurrence of `v` in a list, if any. -/
def pyIndex (v : ℤ) : List ℤ → Option ℕ
  | [] => none
  | t :: rest => if t = v then some 0 else (pyIndex v rest).map (· + 1)

/-- Python's `list.index(v, start)` as an option: index of the first
occurrence of `v` at position `≥ start` (`None` models `ValueError`). -/
def pyIndexFrom (tokens : List ℤ) (v : ℤ) (start : ℕ) : Option ℕ :=
  (pyIndex v (tokens.drop start)).map (· + start)

/-- Model of `extract_user_query_tokens` (`llava_arch.py`, lines 500-523): find the
first image placeholder, then the first end-of-turn marker from there, and
return the slice `tokens[idx_image + 2 : idx_im_end]` (the code deliberately
skips one extra token after the placeholder); any lookup failure returns the
empty list. -/
def extract_user_query_tokens (tokens : List ℤ) : List ℤ :=
  match pyIndexFrom tokens IMAGE_TOKEN_INDEX 0 with
  | none => []
  | some idxImage =>
    match pyIndexFrom tokens IM_END_TOKEN_ID idxImage with
    | none => []
    | some idxEnd => (tokens.drop (idxImage + 2)).take (idxEnd - (idxImage + 2))

/-- The sub-span the spec describes: the token IDs lying strictly between the
image placeholder and the next end-of-turn marker, i.e.
`tokens[idx_image + 1 : idx_im_end]`.  Stated from the spec's words for
comparison with `extract_user_query_tokens`. -/
def specUserQuerySpan (tokens : List ℤ) : List ℤ :=
  match pyIndexFrom tokens IMAGE_TOKEN_INDEX 0 with
  | none => []
  | some idxImage =>
    match pyIndexFrom tokens IM_END_TOKEN_ID idxImage with
    | none => []
    | some idxEnd => (tokens.drop (idxImage + 1)).take (idxEnd - (idxImage + 1))

/-- Index list of `torch.linspace(0, F - 1, n).long()` (`uniform_sample_frames`,
`llava_arch.py` line 333), in exact arithmetic: `n` evenly spaced points from
`0` to `F - 1` inclusive, truncated to integers (`.long()` truncates toward
zero, which is the floor on these non-negative values; `linspace` with one
step returns its start point). -/
def linspaceIdx (F n : ℕ) : List ℕ :=
  (List.range n).map (fun i => if n = 1 then 0 else i * (F - 1) / (n - 1))

/-- Model of `uniform_sample_frames(tensor, num_samples)` (`llava_arch.py`, lines
320-336), with the tensor modelled as the list of its frames: when more
frames than `num_samples` exist, gather the frames at the `linspace`
indices, otherwise return the input unchanged. -/
def uniform_sample_frames {α : Type} [Inhabited α] (frames : List α) (numSamples : ℕ) : List α :=
  if numSamples < frames.length then
    (linspaceIdx frames.length numSamples).map (fun i => frames.getD i default)
  else frames

end Arch

namespace Fuse

/-- Split a (token, label) sequence at the image-placeholder positions
(`llava_arch.py`, lines 874-882: the `image_token_indices` slicing): the
result is the list of maximal placeholder-free chunks, one more chunk than
there are placeholders. -/
def splitAtImage : List (ℤ × ℤ) → List (List (ℤ × ℤ))
  | [] => [[]]
  | (t, l) :: rest =>
    let r := splitAtImage rest
    if t = Arch.IMAGE_TOKEN_INDEX then [] :: r
    else ((t, l) :: r.headI) :: r.tail

/-- The image-feature block consumed for one placeholder (lines 893-898):
`image_features[cur_image_idx]`, falling back to the previous entry when the
global cursor has run past the end (`IndexError` branch). -/
def getFeat {α : Type} (feats : List (List α)) (idx : ℕ) : List α :=
  if idx < feats.length then feats.getD idx [] else feats.getD (idx - 1) []

/-- The interleaving loop of lines 890-900: text chunks alternate with
consumed image-feature blocks; each image row is paired with the
ignore-label sentinel, each text token with its own label.  A fused element
is `Sum.inl token` (text embedding of that token) or `Sum.inr row` (one
image-feature row). -/
def interleave {α : Type} : List (List (ℤ × ℤ)) → List (List α) → ℕ → List ((ℤ ⊕ α) × ℤ)
  | [], _, _ => []
  | [c], _, _ => c.map (fun p => (Sum.inl p.1, p.2))
  | c :: c2 :: rest, feats, cur =>
    c.map (fun p => (Sum.inl p.1, p.2))
      ++ (getFeat feats cur).map (fun r => (Sum.inr r, Arch.IGNORE_INDEX))
      ++ interleave (c2 :: rest) feats (cur + 1)

/-- The per-sample fusion of `prepare_inputs_labels_for_multimodal`
(`llava_arch.py`, lines 861-910), before truncation and padding: with no
placeholder the text is embedded directly (plus an empty feature slice);
otherwise the sequence is split at the placeholders and interleaved with the
consumed feature blocks.  `pairs` zips the sample's token IDs with its
labels; `cur` is the global image-feature cursor at this sample. -/
def fuseSample {α : Type} (pairs : List (ℤ × ℤ)) (feats : List (List α)) (cur : ℕ) :
    List ((ℤ ⊕ α) × ℤ) :=
  if (pairs.filter (fun p => decide (p.1 = Arch.IMAGE_TOKEN_INDEX))).length = 0 then
    pairs.map (fun p => (Sum.inl p.1, p.2))
  else interleave (splitAtImage pairs) feats cur

end Fuse

namespace FX

/-- Python's `int(fps)` for the non-negative average frame rate read on line
84 of `feature_extract.py`: truncation toward zero, i.e. the floor. -/
def truncFps (fps : ℚ) : ℕ := (⌊fps⌋).toNat

/-- Model of `frame_nums = int(len(vr) / int(fps))` (`feature_extract.py`, line 85):
the number of one-second sampling points. -/
def frame_nums (frameCount : ℕ) (fps : ℚ) : ℕ := frameCount / truncFps fps

/-- The recorded source-frame indices `j * int(fps)` for
`j = 0 .. frame_nums - 1` (`feature_extract.py`, lines 93-101). -/
def sampledFrameIndices (frameCount : ℕ) (fps : ℚ) : List ℕ :=
  (List.range (frame_nums frameCount fps)).map (fun j => j * truncFps fps)

/-- The sampling-point count as the spec words it: `floor(frame_count /
round(fps))`.  Stated from the spec for comparison with `frame_nums`. -/
def spec_frame_nums (frameCount : ℕ) (fps : ℚ) : ℕ := frameCount / (round fps).toNat

/-- The recorded source-frame indices as the spec words them:
`j * round(fps)`.  Stated from the spec for comparison with
`sampledFrameIndices`. -/
def spec_sampledFrameIndices (frameCount : ℕ) (fps : ℚ) : List ℕ :=
  (List.range (spec_frame_nums frameCount fps)).map (fun j => j * (round fps).toNat)

end FX

namespace Seg

theorem decLe_trans : ∀ a b c : ℕ, decide (a ≤ b) = true → decide (b ≤ c) = true →
    decide (a ≤ c) = true := by
  intro a b c h1 h2
  simp only [decide_eq_true_eq] at h1 h2 ⊢
  omega

theorem decLe_total : ∀ a b : ℕ, (decide (a ≤ b) || decide (b ≤ a)) = true := by
  intro a b
  simpa using Nat.le_total a b

theorem ascSort_perm (l : List ℕ) : (ascSort l).Perm l :=
  List.mergeSort_perm l _

theorem mem_ascSort {x : ℕ} {l : List ℕ} : x ∈ ascSort l ↔ x ∈ l :=
  List.mem_mergeSort

theorem ascSort_pairwise_le (l : List ℕ) : (ascSort l).Pairwise (· ≤ ·) := by
  have h := @List.sorted_mergeSort ℕ (fun a b => decide (a ≤ b)) decLe_trans decLe_total l
  exact h.imp (fun hab => by simpa using hab)

theorem sortDedup_nodup (l : List ℕ) : (sortDedup l).Nodup :=
  ((ascSort_perm l.dedup).nodup_iff).mpr l.nodup_dedup

theorem mem_sortDedup {x : ℕ} {l : List ℕ} : x ∈ sortDedup l ↔ x ∈ l := by
  simp [sortDedup, mem_ascSort]

theorem sortDedup_pairwise_le (l : List ℕ) : (sortDedup l).Pairwise (· ≤ ·) :=
  ascSort_pairwise_le l.dedup

theorem sortDedup_pairwise_lt (l : List ℕ) : (sortDedup l).Pairwise (· < ·) :=
  ((sortDedup_pairwise_le l).and (sortDedup_nodup l)).imp
    (fun hab => lt_of_le_of_ne hab.1 hab.2)

theorem pairwise_le_getLast : ∀ (l : List ℕ), l.Pairwise (· ≤ ·) →
    ∀ (hne : l ≠ []) (x : ℕ), x ∈ l → x ≤ l.getLast hne := by
  intro l
  induction l with
  | nil => intro _ hne; exact absurd rfl hne
  | cons a t ih =>
    intro hp hne x hx
    cases t with
    | nil =>
      have hxa : x = a := by simpa using hx
      simp [hxa, List.getLast]
    | cons b t2 =>
      rw [List.getLast_cons (by simp : (b :: t2 : List ℕ) ≠ [])]
      rcases List.mem_cons.mp hx with rfl | hx2
      · exact (List.pairwise_cons.mp hp).1 _ (List.getLast_mem _)
      · exact ih (List.pairwise_cons.mp hp).2 (by simp) x hx2

theorem length_cal_depth_score (sims : List ℚ) :
    (cal_depth_score sims).length = sims.length := by
  simp [cal_depth_score]

theorem threshIndices_lt (depths : List ℚ) :
    ∀ x ∈ threshIndices depths, x < depths.length := by
  intro x hx
  exact List.mem_range.mp (List.mem_of_mem_filter hx)

theorem selectBoundaries_lt (depths : List ℚ) :
    ∀ x ∈ selectBoundaries depths, x < depths.length := by
  intro x hx
  simp only [selectBoundaries] at hx
  split at hx
  · have h1 : x ∈ topkIndices depths 15 := mem_ascSort.mp hx
    have h2 : x ∈ (List.range depths.length).mergeSort (topkRel depths) :=
      List.take_subset _ _ h1
    exact List.mem_range.mp (List.mem_mergeSort.mp h2)
  · exact threshIndices_lt depths x hx

theorem appendFinal_eq (T : ℕ) (l : List ℕ) (h : ∀ x ∈ l, x ≠ T - 1) :
    appendFinal T l = l ++ [T] := by
  rw [appendFinal, if_pos]
  cases hl : l with
  | nil => exact Or.inl rfl
  | cons a t =>
    subst hl
    refine Or.inr ?_
    rw [List.getLast?_eq_getLast _ (by simp)]
    intro hc
    exact h _ (List.getLast_mem (by simp)) (by simpa using hc)

/-- C1: for a feature sequence of length `T ≥ 2`, `segment` returns a strictly
increasing (hence deduplicated) list of integers whose elements lie in
`[0, T]` and whose last element is `T`; for `T = 1` it returns exactly
`[0]`.  The similarity list `sims` is the `T - 1` adjacent-frame cosine
similarities, over which the statement is universally quantified. -/
theorem C1_segment_boundary_invariants (T : ℕ) (sims : List ℚ)
    (hlen : sims.length + 1 = T) :
    (2 ≤ T →
      (segment T sims).Pairwise (· < ·) ∧
      (∀ x ∈ segment T sims, x ≤ T) ∧
      (segment T sims).getLast? = some T) ∧
    (T = 1 → segment T sims = [0]) := by
  constructor
  · intro hT
    have hT1 : T ≠ 1 := by omega
    have hseg : segment T sims =
        sortDedup (appendFinal T (selectBoundaries (cal_depth_score sims))) := by
      rw [segment, if_neg hT1]
    have hsel : ∀ x ∈ selectBoundaries (cal_depth_score sims), x < T - 1 := by
      intro x hx
      have := selectBoundaries_lt _ x hx
      rw [length_cal_depth_score] at this
      omega
    have happ : appendFinal T (selectBoundaries (cal_depth_score sims)) =
        selectBoundaries (cal_depth_score sims) ++ [T] := by
      refine appendFinal_eq T _ (fun x hx => ?_)
      have := hsel x hx
      omega
    rw [hseg, happ]
    set l := selectBoundaries (cal_depth_score sims) ++ [T] with hl
    have hmem : ∀ x ∈ sortDedup l, x ≤ T := by
      intro x hx
      rcases List.mem_append.mp (mem_sortDedup.mp hx) with h1 | h1
      · have := hsel x h1
        omega
      · simp at h1
        omega
    have hTmem : T ∈ sortDedup l := mem_sortDedup.mpr (by simp [hl])
    have hne : sortDedup l ≠ [] := List.ne_nil_of_mem hTmem
    refine ⟨sortDedup_pairwise_lt l, hmem, ?_⟩
    rw [List.getLast?_eq_getLast _ hne]
    have h1 : T ≤ (sortDedup l).getLast hne :=
      pairwise_le_getLast _ (sortDedup_pairwise_le l) hne T hTmem
    have h2 : (sortDedup l).getLast hne ≤ T :=
      hmem _ (List.getLast_mem hne)
    exact congrArg some (le_antisymm h2 h1)
  · intro hT
    simp [segment, hT]

/-- Witness for C1 at the concrete input `T = 3`, `sims = [1, 0]` (realised by
three feature vectors `v, v, w` with `w ⟂ v`). -/
theorem C1_witness :
    (segment 3 [1, 0]).getLast? = some 3 ∧ ∀ x ∈ segment 3 [1, 0], x ≤ 3 := by
  have h := C1_segment_boundary_invariants 3 [1, 0] rfl
  exact ⟨(h.1 (by norm_num)).2.2, (h.1 (by norm_num)).2.1⟩

end Seg

namespace Seg

theorem sqDevSum_nonneg (l : List ℚ) : 0 ≤ sqDevSum l := by
  rw [sqDevSum]
  apply List.sum_nonneg
  intro x hx
  rcases List.mem_map.mp hx with ⟨y, _, rfl⟩
  positivity

theorem exceedsThresh_iff (l : List ℚ) (d : ℚ) (hn : 2 ≤ l.length) :
    exceedsThresh l d = true ↔
      (mean l : ℝ) + 2⁻¹ * Real.sqrt ((sqDevSum l : ℝ) / ((l.length : ℝ) - 1)) < (d : ℝ) := by
  have hm : (0 : ℝ) < (l.length : ℝ) - 1 := by
    have h2 : (2 : ℝ) ≤ (l.length : ℝ) := by exact_mod_cast hn
    linarith
  have hS0 : (0 : ℝ) ≤ (sqDevSum l : ℝ) := by exact_mod_cast sqDevSum_nonneg l
  have hb : exceedsThresh l d = true ↔
      (mean l : ℝ) < (d : ℝ) ∧
        (sqDevSum l : ℝ) < ((d : ℝ) - (mean l : ℝ)) ^ 2 * (4 * ((l.length : ℝ) - 1)) := by
    simp only [exceedsThresh, Bool.and_eq_true, decide_eq_true_eq]
    constructor
    · rintro ⟨h1, h2⟩
      exact ⟨by exact_mod_cast h1, by exact_mod_cast h2⟩
    · rintro ⟨h1, h2⟩
      exact ⟨by exact_mod_cast h1, by exact_mod_cast h2⟩
  rw [hb]
  constructor
  · rintro ⟨h1, h2⟩
    have ha : (0 : ℝ) < (d : ℝ) - (mean l : ℝ) := by linarith
    have hv : (sqDevSum l : ℝ) / ((l.length : ℝ) - 1) < (2 * ((d : ℝ) - (mean l : ℝ))) ^ 2 := by
      rw [div_lt_iff hm]
      nlinarith
    have hsq := (Real.sqrt_lt' (by linarith)).mpr hv
    linarith
  · intro h
    have hs0 := Real.sqrt_nonneg ((sqDevSum l : ℝ) / ((l.length : ℝ) - 1))
    have ha : (0 : ℝ) < (d : ℝ) - (mean l : ℝ) := by linarith
    have hsq : Real.sqrt ((sqDevSum l : ℝ) / ((l.length : ℝ) - 1)) <
        2 * ((d : ℝ) - (mean l : ℝ)) := by linarith
    have hv := (Real.sqrt_lt' (by linarith)).mp hsq
    rw [div_lt_iff hm] at hv
    exact ⟨by linarith, by nlinarith⟩

theorem topkRel_trans (depths : List ℚ) : ∀ a b c, topkRel depths a b = true →
    topkRel depths b c = true → topkRel depths a c = true := by
  intro a b c h1 h2
  simp only [topkRel, Bool.or_eq_true, Bool.and_eq_true, decide_eq_true_eq] at h1 h2 ⊢
  rcases h1 with h1 | ⟨h1e, h1i⟩ <;> rcases h2 with h2 | ⟨h2e, h2i⟩
  · exact Or.inl (h2.trans h1)
  · exact Or.inl (h2e ▸ h1)
  · exact Or.inl (h1e.symm ▸ h2)
  · exact Or.inr ⟨h1e.trans h2e, h1i.trans h2i⟩

theorem topkRel_total (depths : List ℚ) : ∀ a b,
    (topkRel depths a b || topkRel depths b a) = true := by
  intro a b
  simp only [topkRel, Bool.or_eq_true, Bool.and_eq_true, decide_eq_true_eq]
  rcases lt_trichotomy (depths.getD a 0) (depths.getD b 0) with h | h | h
  · exact Or.inr (Or.inl h)
  · rcases Nat.le_total a b with hab | hba
    · exact Or.inl (Or.inr ⟨h, hab⟩)
    · exact Or.inr (Or.inr ⟨h.symm, hba⟩)
  · exact Or.inl (Or.inl h)

theorem topkRel_le (depths : List ℚ) {i j : ℕ} (h : topkRel depths i j = true) :
    depths.getD j 0 ≤ depths.getD i 0 := by
  simp only [topkRel, Bool.or_eq_true, Bool.and_eq_true, decide_eq_true_eq] at h
  rcases h with h | ⟨he, _⟩
  · exact le_of_lt h
  · exact le_of_eq he.symm

theorem threshIndices_length_le (depths : List ℚ) :
    (threshIndices depths).length ≤ depths.length := by
  have h := List.length_filter_le
    (fun i => exceedsThresh depths (depths.getD i 0)) (List.range depths.length)
  simpa [threshIndices] using h

/-- C5: in the default (threshold) mode, the candidate boundary indices are
exactly the indices whose depth score strictly exceeds
`mean + 0.5 * std` (with torch's unbiased standard deviation), and whenever
more than 15 indices pass, the candidates are replaced by the 15 indices
with the largest depth scores, sorted ascending (ties stated
tie-insensitively: every kept index has a depth score at least that of any
dropped index). -/
theorem C5_threshold_selection (sims : List ℚ) :
    (∀ i, i ∈ threshIndices (cal_depth_score sims) ↔
      i < (cal_depth_score sims).length ∧
        ((mean (cal_depth_score sims) : ℝ) + 2⁻¹ *
            Real.sqrt ((sqDevSum (cal_depth_score sims) : ℝ) /
              (((cal_depth_score sims).length : ℝ) - 1)) <
          ((cal_depth_score sims).getD i 0 : ℝ))) ∧
    ((threshIndices (cal_depth_score sims)).length ≤ 15 →
      selectBoundaries (cal_depth_score sims) = threshIndices (cal_depth_score sims)) ∧
    (15 < (threshIndices (cal_depth_score sims)).length →
      (selectBoundaries (cal_depth_score sims)).length = 15 ∧
      (selectBoundaries (cal_depth_score sims)).Pairwise (· < ·) ∧
      (∀ i ∈ selectBoundaries (cal_depth_score sims), i < (cal_depth_score sims).length) ∧
      (∀ i ∈ selectBoundaries (cal_depth_score sims),
        ∀ j < (cal_depth_score sims).length, j ∉ selectBoundaries (cal_depth_score sims) →
          (cal_depth_score sims).getD j 0 ≤ (cal_depth_score sims).getD i 0)) := by
  set depths := cal_depth_score sims with hdep
  clear_value depths
  refine ⟨?_, ?_, ?_⟩
  · intro i
    constructor
    · intro hmem
      have hi : i < depths.length := threshIndices_lt depths i hmem
      have hex : exceedsThresh depths (depths.getD i 0) = true := by
        have := List.mem_filter.mp hmem
        exact this.2
      refine ⟨hi, ?_⟩
      rcases Nat.lt_or_ge depths.length 2 with h2 | h2
      · exfalso
        have hn1 : depths.length = 1 := by omega
        obtain ⟨x, hx⟩ := List.length_eq_one.mp hn1
        subst hx
        have hi0 : i = 0 := by omega
        subst hi0
        simp [exceedsThresh, mean, sqDevSum] at hex
      · exact (exceedsThresh_iff depths _ h2).mp hex
    · rintro ⟨hi, hlt⟩
      rcases Nat.lt_or_ge depths.length 2 with h2 | h2
      · exfalso
        have hn1 : depths.length = 1 := by omega
        obtain ⟨x, hx⟩ := List.length_eq_one.mp hn1
        subst hx
        have hi0 : i = 0 := by omega
        subst hi0
        have hμ : mean [x] = x := by simp [mean]
        have hS : sqDevSum [x] = 0 := by simp [sqDevSum, hμ]
        rw [hμ, hS] at hlt
        norm_num at hlt
      · exact List.mem_filter.mpr
          ⟨List.mem_range.mpr hi, (exceedsThresh_iff depths _ h2).mpr hlt⟩
  · intro h
    simp only [selectBoundaries]
    rw [if_neg (by omega)]
  · intro h
    have hsel : selectBoundaries depths = ascSort (topkIndices depths 15) := by
      simp only [selectBoundaries]
      rw [if_pos h]
    have hnle : 15 < depths.length := lt_of_lt_of_le h (threshIndices_length_le depths)
    have htlen : ((List.range depths.length).mergeSort (topkRel depths)).length =
        depths.length := by
      rw [List.length_mergeSort, List.length_range]
    have htklen : (topkIndices depths 15).length = 15 := by
      rw [topkIndices, List.length_take, htlen]
      omega
    have hnodupt : ((List.range depths.length).mergeSort (topkRel depths)).Nodup :=
      ((List.mergeSort_perm _ _).nodup_iff).mpr (List.nodup_range _)
    have hnoduptk : (topkIndices depths 15).Nodup :=
      (List.take_sublist _ _).nodup hnodupt
    have hnodups : (ascSort (topkIndices depths 15)).Nodup :=
      ((ascSort_perm _).nodup_iff).mpr hnoduptk
    have hmemsel : ∀ i ∈ ascSort (topkIndices depths 15), i < depths.length := by
      intro i hi
      have h1 : i ∈ topkIndices depths 15 := mem_ascSort.mp hi
      have h2 : i ∈ (List.range depths.length).mergeSort (topkRel depths) :=
        List.take_subset _ _ h1
      exact List.mem_range.mp (List.mem_mergeSort.mp h2)
    rw [hsel]
    refine ⟨?_, ?_, hmemsel, ?_⟩
    · rw [(ascSort_perm _).length_eq, htklen]
    · exact ((ascSort_pairwise_le _).and hnodups).imp
        (fun hab => lt_of_le_of_ne hab.1 hab.2)
    · intro i hi j hj hjn
      have hit : i ∈ topkIndices depths 15 := mem_ascSort.mp hi
      have hjt : j ∉ topkIndices depths 15 := fun hc => hjn (mem_ascSort.mpr hc)
      have hjm : j ∈ (List.range depths.length).mergeSort (topkRel depths) :=
        List.mem_mergeSort.mpr (List.mem_range.mpr hj)
      have hp := @List.sorted_mergeSort ℕ (topkRel depths) (topkRel_trans depths)
        (topkRel_total depths) (List.range depths.length)
      have hsplit := List.take_append_drop 15
        ((List.range depths.length).mergeSort (topkRel depths))
      rw [← hsplit] at hp hjm
      have hcross := (List.pairwise_append.mp hp).2.2
      have hjd : j ∈ ((List.range depths.length).mergeSort (topkRel depths)).drop 15 := by
        rcases List.mem_append.mp hjm with hc | hc
        · exact absurd hc hjt
        · exact hc
      exact topkRel_le depths (hcross i hit j hjd)

/-- Witness for C5 at `sims = [1, 0]`: the depth scores are `[0, 1]`, a single
index passes the threshold, so the cap branch is not taken. -/
theorem C5_witness :
    selectBoundaries (cal_depth_score [1, 0]) = threshIndices (cal_depth_score [1, 0]) := by
  refine (C5_threshold_selection [1, 0]).2.1 ?_
  have h : threshIndices (cal_depth_score [1, 0]) = [1] := by
    norm_num [threshIndices, cal_depth_score, exceedsThresh, mean, sqDevSum, scanPeak,
      List.range_succ, List.filter]
  rw [h]
  norm_num

end Seg

namespace Seg

theorem decLeZ_trans : ∀ a b c : ℤ, decide (a ≤ b) = true → decide (b ≤ c) = true →
    decide (a ≤ c) = true := by
  intro a b c h1 h2
  simp only [decide_eq_true_eq] at h1 h2 ⊢
  omega

theorem decLeZ_total : ∀ a b : ℤ, (decide (a ≤ b) || decide (b ≤ a)) = true := by
  intro a b
  simpa using Int.le_total a b

theorem ascSortZ_perm (l : List ℤ) : (ascSortZ l).Perm l :=
  List.mergeSort_perm l _

theorem mem_ascSortZ {x : ℤ} {l : List ℤ} : x ∈ ascSortZ l ↔ x ∈ l :=
  List.mem_mergeSort

theorem ascSortZ_pairwise_le (l : List ℤ) : (ascSortZ l).Pairwise (· ≤ ·) := by
  have h := @List.sorted_mergeSort ℤ (fun a b => decide (a ≤ b)) decLeZ_trans decLeZ_total l
  exact h.imp (fun hab => by simpa using hab)

theorem sortDedupZ_nodup (l : List ℤ) : (sortDedupZ l).Nodup :=
  ((ascSortZ_perm l.dedup).nodup_iff).mpr l.nodup_dedup

theorem mem_sortDedupZ {x : ℤ} {l : List ℤ} : x ∈ sortDedupZ l ↔ x ∈ l := by
  simp [sortDedupZ, mem_ascSortZ]

theorem sortDedupZ_pairwise_le (l : List ℤ) : (sortDedupZ l).Pairwise (· ≤ ·) :=
  ascSortZ_pairwise_le l.dedup

theorem sortDedupZ_pairwise_lt (l : List ℤ) : (sortDedupZ l).Pairwise (· < ·) :=
  ((sortDedupZ_pairwise_le l).and (sortDedupZ_nodup l)).imp
    (fun hab => lt_of_le_of_ne hab.1 hab.2)

theorem pairwise_le_getLastZ : ∀ (l : List ℤ), l.Pairwise (· ≤ ·) →
    ∀ (hne : l ≠ []) (x : ℤ), x ∈ l → x ≤ l.getLast hne := by
  intro l
  induction l with
  | nil => intro _ hne; exact absurd rfl hne
  | cons a t ih =>
    intro hp hne x hx
    cases t with
    | nil =>
      have hxa : x = a := by simpa using hx
      simp [hxa, List.getLast]
    | cons b t2 =>
      rw [List.getLast_cons (by simp : (b :: t2 : List ℤ) ≠ [])]
      rcases List.mem_cons.mp hx with rfl | hx2
      · exact (List.pairwise_cons.mp hp).1 _ (List.getLast_mem _)
      · exact ih (List.pairwise_cons.mp hp).2 (by simp) x hx2

theorem pairwise_headI_le (l : List ℤ) (hp : l.Pairwise (· ≤ ·)) :
    ∀ x ∈ l, l.headI ≤ x := by
  intro x hx
  cases l with
  | nil => simp at hx
  | cons a t =>
    rcases List.mem_cons.mp hx with rfl | hx2
    · simp
    · simpa using (List.pairwise_cons.mp hp).1 x hx2

theorem pairwise_gt_headI (l : List ℤ) (hp : l.Pairwise (· > ·)) :
    ∀ x ∈ l, x ≤ l.headI := by
  intro x hx
  cases l with
  | nil => simp at hx
  | cons a t =>
    rcases List.mem_cons.mp hx with rfl | hx2
    · simp
    · simpa using le_of_lt ((List.pairwise_cons.mp hp).1 x hx2)

theorem headI_memZ (l : List ℤ) (hne : l ≠ []) : l.headI ∈ l := by
  cases l with
  | nil => exact absurd rfl hne
  | cons a t => simp

theorem getLast?_memZ {l : List ℤ} {a : ℤ} (h : l.getLast? = some a) : a ∈ l := by
  cases l with
  | nil => simp at h
  | cons b t =>
    rw [List.getLast?_eq_getLast _ (by simp)] at h
    have := List.getLast_mem (by simp : (b :: t : List ℤ) ≠ [])
    rwa [Option.some_inj.mp h] at this

theorem adjPrepare_mem (T : ℕ) (cands : List ℕ) :
    ∀ x ∈ adjPrepare T cands, x = 0 ∨ x = (T : ℤ) ∨ ∃ n ∈ cands, x = (n : ℤ) := by
  intro x hx
  simp only [adjPrepare] at hx
  rw [mem_sortDedupZ] at hx
  split at hx <;> split at hx <;>
    simp only [List.mem_cons, List.mem_append, List.mem_map, List.mem_singleton] at hx <;>
    aesop

theorem adjPrepare_zero_mem (T : ℕ) (cands : List ℕ) : (0 : ℤ) ∈ adjPrepare T cands := by
  simp only [adjPrepare]
  rw [mem_sortDedupZ]
  split <;> rename_i h1
  · split
    · exact List.mem_cons_self _ _
    · rename_i h2
      push_neg at h2
      have hne : (cands.map (fun n => (n : ℤ))) ++ [(T : ℤ)] ≠ [] := by simp
      have := headI_memZ _ hne
      rwa [h2] at this
  · push_neg at h1
    split
    · exact List.mem_cons_self _ _
    · rename_i h2
      push_neg at h2
      have := headI_memZ _ h1.1
      rwa [h2] at this

theorem adjPrepare_T_mem (T : ℕ) (cands : List ℕ) : (T : ℤ) ∈ adjPrepare T cands := by
  simp only [adjPrepare]
  rw [mem_sortDedupZ]
  split <;> rename_i h1
  · split
    · exact List.mem_cons_of_mem _ (by simp)
    · simp
  · push_neg at h1
    split
    · exact List.mem_cons_of_mem _ (getLast?_memZ h1.2)
    · exact getLast?_memZ h1.2

end Seg

namespace Seg

theorem getLast?_consZ (a : ℤ) (l : List ℤ) (h : l ≠ []) :
    (a :: l).getLast? = l.getLast? := by
  cases l with
  | nil => exact absurd rfl h
  | cons b t => exact List.getLast?_cons_cons

theorem insertLoop_keeps (start b gap : ℤ) (X : ℕ) (rev : List ℤ)
    (hne : rev ≠ []) (hlast : rev.getLast? = some 0) :
    insertLoop start b gap X rev ≠ [] ∧
      (insertLoop start b gap X rev).getLast? = some 0 := by
  rw [insertLoop]
  generalize List.range X = l
  induction l generalizing rev with
  | nil => exact ⟨hne, hlast⟩
  | cons i is ih =>
    rw [List.foldl_cons]
    dsimp only
    split
    · exact ih _ (by simp) ((getLast?_consZ _ _ hne).trans hlast)
    · exact ih _ hne hlast

theorem adjStep_keeps (rev : List ℤ) (b : ℤ)
    (hne : rev ≠ []) (hlast : rev.getLast? = some 0) :
    adjStep 32 50 rev b ≠ [] ∧ (adjStep 32 50 rev b).getLast? = some 0 := by
  rw [adjStep]
  dsimp only
  split
  · exact ⟨hne, hlast⟩
  · split
    · obtain ⟨h1, h2⟩ := insertLoop_keeps rev.headI b (b - rev.headI) _ rev hne hlast
      exact ⟨by simp, (getLast?_consZ _ _ h1).trans h2⟩
    · exact ⟨by simp, (getLast?_consZ _ _ hne).trans hlast⟩

theorem adjLoop_keeps (mids : List ℤ) : ∀ (rev : List ℤ), rev ≠ [] →
    rev.getLast? = some 0 →
    mids.foldl (adjStep 32 50) rev ≠ [] ∧
      (mids.foldl (adjStep 32 50) rev).getLast? = some 0 := by
  induction mids with
  | nil => intro rev hne hlast; exact ⟨hne, hlast⟩
  | cons b bs ih =>
    intro rev hne hlast
    rw [List.foldl_cons]
    obtain ⟨h1, h2⟩ := adjStep_keeps rev b hne hlast
    exact ih _ h1 h2

theorem adjFinal_spec (T' : ℤ) (rev : List ℤ) (hne : rev ≠ [])
    (hlast : rev.getLast? = some 0) :
    (adjFinal 32 T' rev).getLast? = some 0 ∧
      adjFinal 32 T' rev ≠ [] ∧
      (32 ≤ T' → (adjFinal 32 T' rev).headI = T') := by
  rw [adjFinal]
  split
  · exact ⟨(getLast?_consZ _ _ hne).trans hlast, by simp, fun _ => rfl⟩
  · rename_i hg
    push_neg at hg
    split
    · rename_i hlen
      cases rev with
      | nil => exact absurd rfl hne
      | cons a t =>
        have htne : t ≠ [] := by
          intro hc
          subst hc
          simp at hlen
        rw [List.tail_cons]
        refine ⟨?_, by simp, fun _ => rfl⟩
        rw [getLast?_consZ _ _ htne, ← getLast?_consZ a t htne]
        exact hlast
    · rename_i hlen
      have h1 : rev.length = 1 := by
        have := List.length_pos.mpr hne
        omega
      obtain ⟨x, hx⟩ := List.length_eq_one.mp h1
      subst hx
      have hx0 : x = 0 := by simpa using hlast
      subst hx0
      refine ⟨hlast, hne, fun h32 => ?_⟩
      exfalso
      simp at hg
      omega

theorem adjPrepare_pairwise_le (T : ℕ) (cands : List ℕ) :
    (adjPrepare T cands).Pairwise (· ≤ ·) := by
  simp only [adjPrepare]
  exact sortDedupZ_pairwise_le _

theorem adjPrepare_ne_nil (T : ℕ) (cands : List ℕ) : adjPrepare T cands ≠ [] :=
  List.ne_nil_of_mem (adjPrepare_T_mem T cands)

theorem adjPrepare_headI (T : ℕ) (cands : List ℕ) : (adjPrepare T cands).headI = 0 := by
  have hmemh := headI_memZ _ (adjPrepare_ne_nil T cands)
  have h1 : (adjPrepare T cands).headI ≤ 0 :=
    pairwise_headI_le _ (adjPrepare_pairwise_le T cands) 0 (adjPrepare_zero_mem T cands)
  have h2 : 0 ≤ (adjPrepare T cands).headI := by
    rcases adjPrepare_mem T cands _ hmemh with h | h | ⟨n, _, h⟩
    · omega
    · omega
    · rw [h]
      exact Int.ofNat_nonneg n
  omega

theorem adjPrepare_getLastI (T : ℕ) (cands : List ℕ)
    (hc : ∀ n ∈ cands, (n : ℤ) ≤ (T : ℤ)) :
    (adjPrepare T cands).getLastI = (T : ℤ) := by
  have hne := adjPrepare_ne_nil T cands
  have hub : ∀ x ∈ adjPrepare T cands, x ≤ (T : ℤ) := by
    intro x hx
    rcases adjPrepare_mem T cands x hx with h | h | ⟨n, hn, h⟩
    · omega
    · omega
    · rw [h]
      exact hc n hn
  have h1 : (T : ℤ) ≤ (adjPrepare T cands).getLast hne :=
    pairwise_le_getLastZ _ (adjPrepare_pairwise_le T cands) hne _ (adjPrepare_T_mem T cands)
  have h2 : (adjPrepare T cands).getLast hne ≤ (T : ℤ) :=
    hub _ (List.getLast_mem hne)
  rw [List.getLastI_eq_getLast?, List.getLast?_eq_getLast _ hne]
  exact le_antisymm h2 h1

/-- C3 (amended): for `T ≥ 2` the first element of `adjusted_segment` is `0`,
and its last element is `T` whenever `T ≥ min_distance = 32`; for
`2 ≤ T < 32` the code instead returns exactly `[0]` (see
`C3_counterexample`), because the end-of-sequence merge branch does nothing
when only the leading boundary has been accepted. -/
theorem C3_adjusted_first_last (T : ℕ) (sims : List ℚ)
    (hT : 2 ≤ T) (hlen : sims.length + 1 = T) :
    (adjusted_segment T sims).head? = some 0 ∧
    (32 ≤ T → (adjusted_segment T sims).getLast? = some (T : ℤ)) := by
  have hT1 : T ≠ 1 := by omega
  have hc : ∀ n ∈ selectBoundaries (cal_depth_score sims), (n : ℤ) ≤ (T : ℤ) := by
    intro n hn
    have h1 := selectBoundaries_lt _ n hn
    rw [length_cal_depth_score] at h1
    have : n ≤ T := by omega
    exact_mod_cast this
  simp only [adjusted_segment, if_neg hT1]
  rw [adjPrepare_headI, adjPrepare_getLastI T _ hc]
  obtain ⟨hfne, hflast⟩ := adjLoop_keeps
    (((adjPrepare T (selectBoundaries (cal_depth_score sims))).drop 1).dropLast)
    [0] (by simp) (by simp)
  obtain ⟨hl0, hlne, hlhead⟩ := adjFinal_spec (T : ℤ) _ hfne hflast
  constructor
  · rw [List.head?_reverse]
    exact hl0
  · intro h32
    rw [List.getLast?_reverse]
    have hh := hlhead (by exact_mod_cast h32)
    cases hfin : adjFinal 32 (T : ℤ)
        ((((adjPrepare T (selectBoundaries (cal_depth_score sims))).drop 1).dropLast).foldl
          (adjStep 32 50) [0]) with
    | nil => exact absurd hfin hlne
    | cons a t =>
      rw [hfin] at hh
      simp at hh
      simp [hh]

end Seg

namespace Seg

theorem sortDedupZ_eq_self (l : List ℤ) (hs : l.Pairwise (· < ·)) : sortDedupZ l = l := by
  have hnd : l.Nodup := hs.imp (fun h => ne_of_lt h)
  have h2 : l.dedup.Perm l := by
    rw [List.dedup_eq_self.mpr hnd]
  have hperm : (sortDedupZ l).Perm l := (ascSortZ_perm l.dedup).trans h2
  exact List.eq_of_perm_of_sorted hperm (sortDedupZ_pairwise_le l) (hs.imp le_of_lt)

/-- Witness for the amended C3 at `T = 40` with a constant similarity signal
(realised by 40 identical feature vectors). -/
theorem C3_witness :
    (adjusted_segment 40 (List.replicate 39 1)).head? = some 0 ∧
    (adjusted_segment 40 (List.replicate 39 1)).getLast? = some 40 := by
  have h := C3_adjusted_first_last 40 (List.replicate 39 1) (by norm_num) (by simp)
  exact ⟨h.1, h.2 (by norm_num)⟩

/-- Counterexample to C3 as stated: for the two-frame video with identical
frames (`T = 2`, one cosine similarity `1`), no candidate passes the
threshold, the raw boundary list is `[0, 2]`, the middle loop accepts
nothing, and the final gap `2 < 32` with only one accepted boundary leaves
`[0]`: the returned list does not end with `T = 2`. -/
theorem C3_counterexample :
    adjusted_segment 2 [1] = [0] ∧
    (adjusted_segment 2 [1]).getLast? ≠ some ((2 : ℕ) : ℤ) := by
  have hds : cal_depth_score [1] = [0] := by
    norm_num [cal_depth_score, scanPeak, List.range_succ]
  have hti : threshIndices [0] = [] := by
    simp [threshIndices, exceedsThresh, mean, List.range_succ]
  have h1 : selectBoundaries (cal_depth_score [1]) = [] := by
    rw [hds]
    simp [selectBoundaries, hti]
  have hprep : adjPrepare 2 [] = [0, 2] := by
    simp only [adjPrepare]
    norm_num
    exact sortDedupZ_eq_self _ (by decide)
  have h2 : adjusted_segment 2 [1] = [0] := by
    rw [adjusted_segment, if_neg (by norm_num : ¬(2 = 1)), h1, hprep]
    decide
  refine ⟨h2, ?_⟩
  rw [h2]
  decide

end Seg

namespace Seg

theorem headI_map_fst (rev : List (ℤ × Origin)) :
    (rev.map Prod.fst).headI = rev.headI.1 := by
  cases rev <;> rfl

theorem head?_headI (l : List (ℤ × Origin)) (a : ℤ × Origin) (h : l.head? = some a) :
    l.headI = a := by
  cases l with
  | nil => simp at h
  | cons c t => simpa using h

theorem insertLoopT_erase (start b gap : ℤ) (X : ℕ) (rev : List (ℤ × Origin)) :
    (insertLoopT start b gap X rev).map Prod.fst =
      insertLoop start b gap X (rev.map Prod.fst) := by
  rw [insertLoopT, insertLoop]
  generalize List.range X = l
  induction l generalizing rev with
  | nil => rfl
  | cons i is ih =>
    rw [List.foldl_cons, List.foldl_cons]
    dsimp only
    rw [headI_map_fst]
    by_cases hc : rev.headI.1 <
        start + pyRound ((gap : ℚ) * (((i : ℕ) : ℚ) + 1) / ((X : ℚ) + 1)) ∧
        start + pyRound ((gap : ℚ) * (((i : ℕ) : ℚ) + 1) / ((X : ℚ) + 1)) < b
    · rw [if_pos hc, if_pos hc]
      have h2 := ih ((start + pyRound ((gap : ℚ) * (((i : ℕ) : ℚ) + 1) / ((X : ℚ) + 1)),
        Origin.ins) :: rev)
      simpa using h2
    · rw [if_neg hc, if_neg hc]
      exact ih rev

theorem adjStepT_erase (minD maxD : ℤ) (rev : List (ℤ × Origin)) (b : ℤ) :
    (adjStepT minD maxD rev b).map Prod.fst = adjStep minD maxD (rev.map Prod.fst) b := by
  rw [adjStepT, adjStep]
  dsimp only
  rw [headI_map_fst]
  by_cases h1 : b - rev.headI.1 < minD
  · rw [if_pos h1, if_pos h1]
  · rw [if_neg h1, if_neg h1]
    by_cases h2 : maxD < b - rev.headI.1
    · rw [if_pos h2, if_pos h2]
      simp [insertLoopT_erase]
    · rw [if_neg h2, if_neg h2]
      simp

theorem adjFinalT_erase (minD last : ℤ) (rev : List (ℤ × Origin)) :
    (adjFinalT minD last rev).map Prod.fst = adjFinal minD last (rev.map Prod.fst) := by
  rw [adjFinalT, adjFinal]
  rw [headI_map_fst, List.length_map]
  by_cases h1 : minD ≤ last - rev.headI.1
  · rw [if_pos h1, if_pos h1]
    simp
  · rw [if_neg h1, if_neg h1]
    by_cases h2 : 2 ≤ rev.length
    · rw [if_pos h2, if_pos h2]
      simp [List.map_tail]
    · rw [if_neg h2, if_neg h2]

theorem adjLoopT_erase (mids : List ℤ) : ∀ (rev : List (ℤ × Origin)),
    (mids.foldl (adjStepT 32 50) rev).map Prod.fst =
      mids.foldl (adjStep 32 50) (rev.map Prod.fst) := by
  induction mids with
  | nil => intro rev; rfl
  | cons b bs ih =>
    intro rev
    rw [List.foldl_cons, List.foldl_cons, ← adjStepT_erase]
    exact ih _

theorem adjustedTagged_erase (T : ℕ) (sims : List ℚ) :
    (adjustedTagged T sims).map Prod.fst = adjusted_segment T sims := by
  rw [adjustedTagged, adjusted_segment]
  by_cases hT : T = 1
  · rw [if_pos hT, if_pos hT]
    rfl
  · rw [if_neg hT, if_neg hT]
    dsimp only
    rw [List.map_reverse, adjFinalT_erase, adjLoopT_erase]
    rfl

theorem insertLoopT_chain (start b gap : ℤ) (X : ℕ) (rev : List (ℤ × Origin))
    (h : List.Chain' (fun v u => u.2 = Origin.cand → v.2 = Origin.cand → 32 ≤ v.1 - u.1) rev) :
    List.Chain' (fun v u => u.2 = Origin.cand → v.2 = Origin.cand → 32 ≤ v.1 - u.1)
      (insertLoopT start b gap X rev) ∧
    (insertLoopT start b gap X rev = rev ∨
      (insertLoopT start b gap X rev).head?.map Prod.snd = some Origin.ins) := by
  rw [insertLoopT]
  generalize List.range X = l
  induction l generalizing rev with
  | nil => exact ⟨h, Or.inl rfl⟩
  | cons i is ih =>
    rw [List.foldl_cons]
    dsimp only
    split
    · rename_i hc
      have hch : List.Chain'
          (fun v u => u.2 = Origin.cand → v.2 = Origin.cand → 32 ≤ v.1 - u.1)
          ((start + pyRound ((gap : ℚ) * (((i : ℕ) : ℚ) + 1) / ((X : ℚ) + 1)),
            Origin.ins) :: rev) := by
        refine List.chain'_cons'.mpr ⟨?_, h⟩
        intro u _ _ hv2
        simp at hv2
      obtain ⟨h1, h2⟩ := ih _ hch
      refine ⟨h1, Or.inr ?_⟩
      rcases h2 with heq | hins
      · rw [heq]
        rfl
      · exact hins
    · exact ih rev h

theorem adjStepT_chain (rev : List (ℤ × Origin)) (b : ℤ)
    (h : List.Chain' (fun v u => u.2 = Origin.cand → v.2 = Origin.cand → 32 ≤ v.1 - u.1) rev) :
    List.Chain' (fun v u => u.2 = Origin.cand → v.2 = Origin.cand → 32 ≤ v.1 - u.1)
      (adjStepT 32 50 rev b) := by
  rw [adjStepT]
  dsimp only
  split
  · exact h
  · rename_i hgap
    push_neg at hgap
    split
    · obtain ⟨hch, hd⟩ := insertLoopT_chain rev.headI.1 b (b - rev.headI.1) _ rev h
      refine List.chain'_cons'.mpr ⟨?_, hch⟩
      intro u hu hu2 _
      rcases hd with heq | hins
      · rw [heq] at hu
        have hhu := head?_headI _ _ (Option.mem_def.mp hu)
        rw [← hhu]
        omega
      · rw [Option.mem_def] at hu
        rw [hu] at hins
        simp at hins
        rw [hu2] at hins
        exact absurd hins (by decide)
    · refine List.chain'_cons'.mpr ⟨?_, h⟩
      intro u hu hu2 _
      have hhu := head?_headI _ _ (Option.mem_def.mp hu)
      rw [← hhu]
      omega

theorem adjLoopT_chain (mids : List ℤ) : ∀ (rev : List (ℤ × Origin)),
    List.Chain' (fun v u => u.2 = Origin.cand → v.2 = Origin.cand → 32 ≤ v.1 - u.1) rev →
    List.Chain' (fun v u => u.2 = Origin.cand → v.2 = Origin.cand → 32 ≤ v.1 - u.1)
      (mids.foldl (adjStepT 32 50) rev) := by
  induction mids with
  | nil => intro rev h; exact h
  | cons b bs ih =>
    intro rev h
    rw [List.foldl_cons]
    exact ih _ (adjStepT_chain rev b h)

theorem adjFinalT_chain (last : ℤ) (rev : List (ℤ × Origin))
    (h : List.Chain' (fun v u => u.2 = Origin.cand → v.2 = Origin.cand → 32 ≤ v.1 - u.1) rev) :
    List.Chain' (fun v u => u.2 = Origin.cand → v.2 = Origin.cand → 32 ≤ v.1 - u.1)
      (adjFinalT 32 last rev) := by
  rw [adjFinalT]
  split
  · rename_i hg
    refine List.chain'_cons'.mpr ⟨?_, h⟩
    intro u hu hu2 _
    have hhu := head?_headI _ _ (Option.mem_def.mp hu)
    rw [← hhu]
    omega
  · split
    · refine List.chain'_cons'.mpr ⟨?_, h.tail⟩
      intro u _ _ hv2
      simp at hv2
    · exact h

theorem insertLoopT_nomerge (start b gap : ℤ) (X : ℕ) (rev : List (ℤ × Origin))
    (h : ∀ p ∈ rev, p.2 ≠ Origin.merged) :
    ∀ p ∈ insertLoopT start b gap X rev, p.2 ≠ Origin.merged := by
  rw [insertLoopT]
  generalize List.range X = l
  induction l generalizing rev with
  | nil => exact h
  | cons i is ih =>
    rw [List.foldl_cons]
    dsimp only
    split
    · refine ih _ ?_
      intro p hp
      rcases List.mem_cons.mp hp with rfl | hp2
      · simp
      · exact h p hp2
    · exact ih rev h

theorem adjStepT_nomerge (rev : List (ℤ × Origin)) (b : ℤ)
    (h : ∀ p ∈ rev, p.2 ≠ Origin.merged) :
    ∀ p ∈ adjStepT 32 50 rev b, p.2 ≠ Origin.merged := by
  rw [adjStepT]
  dsimp only
  split
  · exact h
  · intro p hp
    rcases List.mem_cons.mp hp with rfl | hp2
    · simp
    · split at hp2
      · exact insertLoopT_nomerge _ _ _ _ rev h p hp2
      · exact h p hp2

theorem adjLoopT_nomerge (mids : List ℤ) : ∀ (rev : List (ℤ × Origin)),
    (∀ p ∈ rev, p.2 ≠ Origin.merged) →
    ∀ p ∈ mids.foldl (adjStepT 32 50) rev, p.2 ≠ Origin.merged := by
  induction mids with
  | nil => intro rev h; exact h
  | cons b bs ih =>
    intro rev h
    rw [List.foldl_cons]
    exact ih _ (adjStepT_nomerge rev b h)

theorem adjFinalT_tail_nomerge (last : ℤ) (rev : List (ℤ × Origin))
    (h : ∀ p ∈ rev, p.2 ≠ Origin.merged) :
    ∀ p ∈ (adjFinalT 32 last rev).tail, p.2 ≠ Origin.merged := by
  rw [adjFinalT]
  split
  · intro p hp
    exact h p (by simpa using hp)
  · split
    · intro p hp
      rw [List.tail_cons] at hp
      exact h p (List.tail_subset rev hp)
    · intro p hp
      exact h p (List.tail_subset rev hp)

theorem dropLast_reverseP (l : List (ℤ × Origin)) : l.reverse.dropLast = l.tail.reverse := by
  cases l with
  | nil => rfl
  | cons a t => simp [List.reverse_cons, List.dropLast_concat]

/-- C4 (amended): erasing the provenance tags of `adjustedTagged` recovers
`adjusted_segment`; every pair of consecutive returned boundaries in which
both members are accepted candidates (this includes the leading `0` and an
appended final boundary) has gap at least `min_distance = 32`; and the
end-of-sequence merge can only affect the last returned boundary.  Gaps
adjacent to boundaries inserted by the oversized-gap filling (positions
`start + round(gap·i/(X+1))`, kept only when strictly inside the open
interval — see `insertLoop`) may be smaller than 32, which refutes the
unamended claim (see `C4_counterexample`). -/
theorem C4_adjusted_spacing (T : ℕ) (sims : List ℚ) :
    (adjustedTagged T sims).map Prod.fst = adjusted_segment T sims ∧
    List.Chain' (fun u v => u.2 = Origin.cand → v.2 = Origin.cand → 32 ≤ v.1 - u.1)
      (adjustedTagged T sims) ∧
    ∀ p ∈ (adjustedTagged T sims).dropLast, p.2 ≠ Origin.merged := by
  refine ⟨adjustedTagged_erase T sims, ?_, ?_⟩
  · rw [adjustedTagged]
    split
    · simp
    · rw [List.chain'_reverse]
      exact adjFinalT_chain _ _ (adjLoopT_chain _ _ (List.chain'_singleton _))
  · rw [adjustedTagged]
    split
    · intro p hp
      simp at hp
    · rw [dropLast_reverseP]
      intro p hp
      rw [List.mem_reverse] at hp
      have hinit : ∀ q ∈ [((adjPrepare T (selectBoundaries (cal_depth_score sims))).headI,
          Origin.cand)], q.2 ≠ Origin.merged := by
        intro q hq2
        rcases List.mem_cons.mp hq2 with rfl | h2
        · simp
        · simp at h2
      exact adjFinalT_tail_nomerge _ _ (adjLoopT_nomerge _ _ hinit) p hp

end Seg

namespace Seg

theorem scanPeak_replicate (m : ℕ) (c : ℚ) : scanPeak c (List.replicate m c) = c := by
  induction m with
  | zero => rfl
  | succ k ih =>
    rw [List.replicate_succ]
    simp only [scanPeak, le_refl, if_pos]
    exact ih

theorem scanPeak_replicate_stop (m : ℕ) (c x : ℚ) (h : x < c) (rest : List ℚ) :
    scanPeak c (List.replicate m c ++ x :: rest) = c := by
  induction m with
  | zero =>
    simp only [List.replicate_zero, List.nil_append, scanPeak]
    rw [if_neg (not_le.mpr h)]
  | succ k ih =>
    rw [List.replicate_succ, List.cons_append]
    simp only [scanPeak, le_refl, if_pos]
    exact ih

theorem scanPeak_le_replicate (m : ℕ) (a c : ℚ) (ha : a ≤ c) (hm : 1 ≤ m) :
    scanPeak a (List.replicate m c) = c := by
  cases m with
  | zero => omega
  | succ k =>
    rw [List.replicate_succ]
    simp only [scanPeak]
    rw [if_pos ha]
    exact scanPeak_replicate k c

theorem getD_dip (a b : ℚ) (n : ℕ) (hn : n < 82) :
    (List.replicate 51 a ++ b :: List.replicate 30 a).getD n 0 =
      if n = 51 then b else a := by
  rcases Nat.lt_trichotomy n 51 with h | h | h
  · rw [List.getD_append _ _ _ _ (by simpa using h), if_neg (by omega)]
    rw [List.getD_eq_getElem _ _ (by simpa using h)]
    rw [List.getElem_replicate]
  · subst h
    rw [List.getD_append_right _ _ _ _ (by simp)]
    simp
  · rw [List.getD_append_right _ _ _ _ (by simp; omega), if_neg (by omega)]
    simp only [List.length_replicate]
    have h52 : n - 51 = (n - 52) + 1 := by omega
    rw [h52, List.getD_cons_succ]
    rw [List.getD_eq_getElem _ _ (by simp; omega)]
    rw [List.getElem_replicate]

theorem take_dip (a b : ℚ) (n : ℕ) (h : n ≤ 51) :
    (List.replicate 51 a ++ b :: List.replicate 30 a).take n = List.replicate n a := by
  rw [List.take_append_eq_append_take, List.take_replicate]
  have h1 : n - (List.replicate 51 a).length = 0 := by simp; omega
  rw [h1]
  simp [min_eq_left h]

theorem take_dip_high (a b : ℚ) (n : ℕ) (h : 52 ≤ n) (h82 : n ≤ 82) :
    (List.replicate 51 a ++ b :: List.replicate 30 a).take n =
      List.replicate 51 a ++ b :: List.replicate (n - 52) a := by
  rw [List.take_append_eq_append_take, List.take_replicate]
  have h1 : min n 51 = 51 := by omega
  have h2 : n - (List.replicate 51 a).length = (n - 52) + 1 := by simp; omega
  rw [h1, h2, List.take_cons (by omega), List.take_replicate]
  have h3 : (n - 52 + 1 - 1) ⊓ 30 = n - 52 := by omega
  rw [h3]

theorem drop_dip_low (a b : ℚ) (n : ℕ) (h : n < 51) :
    (List.replicate 51 a ++ b :: List.replicate 30 a).drop (n + 1) =
      List.replicate (50 - n) a ++ b :: List.replicate 30 a := by
  rw [List.drop_append_eq_append_drop, List.drop_replicate]
  have h1 : n + 1 - (List.replicate 51 a).length = 0 := by simp; omega
  have h2 : 51 - (n + 1) = 50 - n := by omega
  rw [h1, h2]
  simp

theorem drop_dip_51 (a b : ℚ) :
    (List.replicate 51 a ++ b :: List.replicate 30 a).drop 52 = List.replicate 30 a := by
  rw [List.drop_append_eq_append_drop, List.drop_replicate]
  have h1 : 51 - 52 = 0 := by omega
  have h2 : 52 - (List.replicate 51 a).length = 1 := by simp
  rw [h1, h2]
  simp

theorem drop_dip_high (a b : ℚ) (n : ℕ) (h : 52 ≤ n) :
    (List.replicate 51 a ++ b :: List.replicate 30 a).drop (n + 1) =
      List.replicate (81 - n) a := by
  rw [List.drop_append_eq_append_drop, List.drop_replicate]
  have h1 : 51 - (n + 1) = 0 := by omega
  have h2 : n + 1 - (List.replicate 51 a).length = (n - 51) + 1 := by simp; omega
  rw [h1, h2]
  simp only [List.replicate_zero, List.nil_append, List.drop_succ_cons, List.drop_replicate]
  congr 1
  omega

theorem cal_depth_dip :
    cal_depth_score (List.replicate 51 1 ++ 0 :: List.replicate 30 1) =
      List.replicate 51 0 ++ 2 :: List.replicate 30 0 := by
  apply List.ext_getElem
  · simp [cal_depth_score]
  intro n h1 h2
  have hn : n < 82 := by
    simpa [cal_depth_score] using h1
  simp only [cal_depth_score, List.getElem_map, List.getElem_range]
  rw [← List.getD_eq_getElem _ 0 h2, getD_dip 0 2 n hn, getD_dip 1 0 n hn]
  rcases Nat.lt_trichotomy n 51 with h | h | h
  · rw [if_neg (by omega), if_neg (by omega)]
    rw [take_dip 1 0 n (by omega), List.reverse_replicate, scanPeak_replicate]
    rw [drop_dip_low 1 0 n h, scanPeak_replicate_stop _ _ _ (by norm_num)]
    norm_num
  · subst h
    rw [if_pos rfl, if_pos rfl]
    rw [take_dip 1 0 51 (by omega), List.reverse_replicate]
    rw [scanPeak_le_replicate _ _ _ (by norm_num) (by norm_num)]
    rw [show (51 : ℕ) + 1 = 52 from rfl, drop_dip_51]
    rw [scanPeak_le_replicate _ _ _ (by norm_num) (by norm_num)]
    norm_num
  · rw [if_neg (by omega), if_neg (by omega)]
    rw [take_dip_high 1 0 n (by omega) (by omega), List.reverse_append,
      List.reverse_cons, List.reverse_replicate, List.reverse_replicate,
      List.append_assoc, List.singleton_append]
    rw [scanPeak_replicate_stop _ _ _ (by norm_num)]
    rw [drop_dip_high 1 0 n (by omega), scanPeak_replicate]
    norm_num

theorem threshIndices_dip :
    threshIndices (List.replicate 51 0 ++ 2 :: List.replicate 30 0) = [51] := by
  have hmean : mean (List.replicate 51 (0 : ℚ) ++ 2 :: List.replicate 30 0) = 1 / 41 := by
    rw [mean]
    simp [List.sum_replicate]
    norm_num
  have hS : sqDevSum (List.replicate 51 (0 : ℚ) ++ 2 :: List.replicate 30 0) =
      6642 / 1681 := by
    rw [sqDevSum, hmean]
    simp [List.map_replicate, List.sum_replicate]
    norm_num
  have hex0 : exceedsThresh (List.replicate 51 (0 : ℚ) ++ 2 :: List.replicate 30 0) 0 =
      false := by
    rw [exceedsThresh, hmean]
    norm_num
  have hex2 : exceedsThresh (List.replicate 51 (0 : ℚ) ++ 2 :: List.replicate 30 0) 2 =
      true := by
    rw [exceedsThresh, hmean, hS]
    simp only [List.length_append, List.length_replicate, List.length_cons]
    norm_num
  rw [threshIndices]
  have hlen : (List.replicate 51 (0 : ℚ) ++ 2 :: List.replicate 30 0).length = 82 := by
    simp
  rw [hlen]
  have hpoint : ∀ i ∈ List.range 82,
      exceedsThresh (List.replicate 51 (0 : ℚ) ++ 2 :: List.replicate 30 0)
        ((List.replicate 51 (0 : ℚ) ++ 2 :: List.replicate 30 0).getD i 0) =
      decide (i = 51) := by
    intro i hi
    have hi82 : i < 82 := List.mem_range.mp hi
    rw [getD_dip 0 2 i hi82]
    by_cases h51 : i = 51
    · subst h51
      rw [if_pos rfl, hex2]
      simp
    · rw [if_neg h51, hex0]
      simp [h51]
  rw [List.filter_congr hpoint]
  decide

theorem select_dip :
    selectBoundaries (List.replicate 51 0 ++ 2 :: List.replicate 30 0) = [51] := by
  simp only [selectBoundaries, threshIndices_dip]
  norm_num

end Seg

namespace Seg

theorem pyRound_512 : pyRound ((51 : ℚ) / 2) = 26 := by
  have hfl : ⌊(51 : ℚ) / 2⌋ = 25 := by
    rw [Int.floor_eq_iff]
    constructor <;> norm_num
  have hfr : Int.fract ((51 : ℚ) / 2) = 1 / 2 := by
    rw [Int.fract, hfl]
    norm_num
  rw [pyRound, hfr, hfl]
  norm_num

theorem insertLoop_eval : insertLoop 0 51 51 1 [0] = [26, 0] := by
  rw [insertLoop]
  rw [show List.range 1 = [0] from rfl]
  rw [List.foldl_cons, List.foldl_nil]
  dsimp only
  have harg : ((51 : ℤ) : ℚ) * (((0 : ℕ) : ℚ) + 1) / (((1 : ℕ) : ℚ) + 1) = 51 / 2 := by
    push_cast
    ring
  rw [harg, pyRound_512]
  norm_num

theorem adjStep_eval : adjStep 32 50 [0] 51 = [51, 26, 0] := by
  rw [adjStep]
  dsimp only
  rw [show ([0] : List ℤ).headI = 0 from rfl]
  rw [if_neg (by norm_num : ¬((51 : ℤ) - 0 < 32))]
  rw [if_pos (by norm_num : (50 : ℤ) < 51 - 0)]
  rw [show ((51 : ℤ) - 0) = 51 from by norm_num]
  rw [show ((51 : ℤ) / 50).toNat = 1 from by decide]
  rw [insertLoop_eval]

/-- Counterexample to C4 as stated: with `T = 83` frames and a single
similarity dip at index 51 (features `v ... v w v ... v` with `w ⟂ v`), the
threshold selects the sole candidate `51`; the raw boundary list is
`[0, 51, 83]`, the gap `51 > 50` triggers insertion of one extra boundary at
`0 + round(51/2) = 26`, and the result `[0, 26, 51, 83]` contains the
consecutive pair `(26, 51)` with gap `25 < 32`.  This pair is interior (the
final pair `(51, 83)` arises from the appended final boundary with gap
`32`), so it is not covered by the claim's first/last-merge exception. -/
theorem C4_counterexample :
    adjusted_segment 83 (List.replicate 51 1 ++ 0 :: List.replicate 30 1) =
      [0, 26, 51, 83] ∧
    (adjusted_segment 83 (List.replicate 51 1 ++ 0 :: List.replicate 30 1)).getD 2 0 -
      (adjusted_segment 83 (List.replicate 51 1 ++ 0 :: List.replicate 30 1)).getD 1 0 < 32 ∧
    (adjusted_segment 83 (List.replicate 51 1 ++ 0 :: List.replicate 30 1)).getD 3 0 =
      83 := by
  have hprep : adjPrepare 83 [51] = [0, 51, 83] := by
    simp only [adjPrepare]
    norm_num
    exact sortDedupZ_eq_self _ (by decide)
  have hmain : adjusted_segment 83 (List.replicate 51 1 ++ 0 :: List.replicate 30 1) =
      [0, 26, 51, 83] := by
    rw [adjusted_segment, if_neg (by norm_num : ¬(83 = 1))]
    rw [cal_depth_dip, select_dip, hprep]
    dsimp only
    rw [show (([0, 51, 83] : List ℤ).drop 1).dropLast = [51] from rfl]
    rw [show ([0, 51, 83] : List ℤ).getLastI = 83 from rfl]
    rw [show ([0, 51, 83] : List ℤ).headI = 0 from rfl]
    rw [List.foldl_cons, List.foldl_nil, adjStep_eval]
    rw [adjFinal]
    rw [show ([51, 26, 0] : List ℤ).headI = 51 from rfl]
    rw [if_pos (by norm_num : (32 : ℤ) ≤ 83 - 51)]
    rfl
  refine ⟨hmain, ?_, ?_⟩
  · rw [hmain]
    decide
  · rw [hmain]
    decide

end Seg

namespace RMT

theorem allFalse_getLastI (cache : List Bool) (h : ∀ b ∈ cache, b = false) :
    cache.getLastI = false := by
  cases cache with
  | nil => rfl
  | cons a t =>
    have hm := h _ (List.getLast_mem (by simp : (a :: t : List Bool) ≠ []))
    rw [List.getLastI_eq_getLast?, List.getLast?_eq_getLast _ (by simp)]
    simpa using hm

theorem anyFalse (cache : List Bool) (h : ∀ b ∈ cache, b = false) :
    cache.any id = false := by
  rw [List.any_eq_false]
  intro x hx
  simp [h x hx]

theorem fold_layer_false (d : ℕ) (h0 : Bool) :
    (List.range d).foldl (fun h _ => layerNaN false h) h0 = h0 := by
  generalize List.range d = l
  induction l generalizing h0 with
  | nil => rfl
  | cons i is ih =>
    rw [List.foldl_cons]
    rw [show layerNaN false h0 = h0 from by simp [layerNaN]]
    exact ih h0

theorem fold_layer_true (p : Bool) (d : ℕ) :
    (List.range d).foldl (fun h _ => layerNaN p h) true = true := by
  generalize List.range d = l
  induction l with
  | nil => rfl
  | cons i is ih =>
    rw [List.foldl_cons]
    rw [show layerNaN p true = true from by simp [layerNaN]]
    exact ih

theorem hidden_of_wm (tp : TP) (cache : List Bool) (x : Bool)
    (h : workingMemory tp cache = true) : hiddenStateNaN tp cache x = true := by
  rw [hiddenStateNaN, h]
  rw [show (true || x) = true from by simp]
  exact fold_layer_true tp.paramsNaN tp.depth

/-- C6: with finite (NaN-free) parameters and inputs, every forward call of
`TransformerProjector` succeeds and appends exactly one new memory state to
`memory_cache`, so after `N` sequential calls without reset the cache holds
exactly `N` entries. -/
theorem C6_memory_cache_growth (tp : TP) (inputs : List Bool)
    (hp : tp.paramsNaN = false) (hm : tp.initMemNaN = false)
    (hx : ∀ x ∈ inputs, x = false) :
    (∀ (cache : List Bool) (x : Bool), (∀ b ∈ cache, b = false) → x = false →
      forward tp cache x = some (false, cache ++ [false])) ∧
    runForward tp [] inputs = some (List.replicate inputs.length false) := by
  have hfwd : ∀ (cache : List Bool) (x : Bool), (∀ b ∈ cache, b = false) → x = false →
      forward tp cache x = some (false, cache ++ [false]) := by
    intro cache x hc hxf
    have hwm : workingMemory tp cache = false := by
      rw [workingMemory]
      have hcur : (if cache.isEmpty then tp.initMemNaN else cache.getLastI) = false := by
        split
        · exact hm
        · exact allFalse_getLastI cache hc
      rw [hcur]
      split
      · rw [updateMemoryWithCache]
        split
        · rfl
        · rw [attnNaN, hp, anyFalse cache hc]
          rfl
      · rfl
    have hhid : hiddenStateNaN tp cache x = false := by
      rw [hiddenStateNaN, hwm, hxf]
      rw [show (false || false) = false from rfl]
      simp only [hp]
      exact fold_layer_false tp.depth false
    rw [forward, if_neg (by simp [hm])]
    simp only [hhid]
    rfl
  refine ⟨hfwd, ?_⟩
  suffices h : ∀ (ins : List Bool), (∀ x ∈ ins, x = false) → ∀ (k : ℕ),
      runForward tp (List.replicate k false) ins =
        some (List.replicate (k + ins.length) false) by
    simpa using h inputs hx 0
  intro ins
  induction ins with
  | nil =>
    intro _ k
    simp [runForward]
  | cons x xs ih =>
    intro hxx k
    simp only [runForward]
    rw [hfwd _ x (by simp) (hxx x (by simp))]
    have h2 := ih (fun y hy => hxx y (List.mem_cons_of_mem _ hy)) (k + 1)
    dsimp only
    rw [← List.replicate_succ']
    rw [List.length_cons, show k + (xs.length + 1) = (k + 1) + xs.length from by omega]
    exact h2

/-- Witness for C6: three forward calls on NaN-free inputs from a reset cache
leave exactly three cache entries. -/
theorem C6_witness :
    runForward ⟨false, false, 1⟩ [] [false, false, false] =
      some (List.replicate 3 false) :=
  (C6_memory_cache_growth ⟨false, false, 1⟩ [false, false, false] rfl rfl
    (by simp)).2

/-- C7: a NaN in the working memory tensor or in the self-attention output
makes `TransformerProjector.forward` raise (the check on lines 290-291 for
the first call, and the check on lines 322-323 otherwise, which any NaN in
the working memory necessarily triggers because every intermediate operation
propagates NaNs); a NaN is never silently returned in the memory tokens. -/
theorem C7_nan_abort (tp : TP) (cache : List Bool) (x : Bool) :
    ((workingMemory tp cache = true ∨ hiddenStateNaN tp cache x = true) →
      forward tp cache x = none) ∧
    (∀ (m : Bool) (c : List Bool), forward tp cache x = some (m, c) → m = false) := by
  constructor
  · intro h
    have hh : hiddenStateNaN tp cache x = true := by
      rcases h with h | h
      · exact hidden_of_wm tp cache x h
      · exact h
    rw [forward]
    split
    · rfl
    · simp only [hh]
      rfl
  · intro m c hmc
    simp only [forward] at hmc
    split at hmc
    · simp at hmc
    · by_cases hh : hiddenStateNaN tp cache x = true
      · rw [hh] at hmc
        simp at hmc
      · have hf : hiddenStateNaN tp cache x = false := by
          simpa using hh
        rw [hf] at hmc
        simp at hmc
        exact hmc.1

/-- Witness for C7: a NaN in `initial_memory` on a first call (empty cache)
aborts the forward pass. -/
theorem C7_witness : forward ⟨false, true, 1⟩ [] false = none :=
  (C7_nan_abort ⟨false, true, 1⟩ [] false).1 (Or.inl rfl)

end RMT

namespace Fuse

theorem splitAtImage_ne_nil (pairs : List (ℤ × ℤ)) : splitAtImage pairs ≠ [] := by
  cases pairs with
  | nil => simp [splitAtImage]
  | cons p rest =>
    obtain ⟨t, l⟩ := p
    simp only [splitAtImage]
    split <;> simp

theorem headI_tail_chunks (l : List (List (ℤ × ℤ))) (h : l ≠ []) :
    l.headI :: l.tail = l := by
  cases l with
  | nil => exact absurd rfl h
  | cons a t => rfl

theorem splitAtImage_length (pairs : List (ℤ × ℤ)) :
    (splitAtImage pairs).length =
      (pairs.filter (fun p => decide (p.1 = Arch.IMAGE_TOKEN_INDEX))).length + 1 := by
  induction pairs with
  | nil => rfl
  | cons p rest ih =>
    obtain ⟨t, l⟩ := p
    simp only [splitAtImage]
    by_cases h : t = Arch.IMAGE_TOKEN_INDEX
    · rw [if_pos h]
      simp only [List.length_cons, List.filter_cons]
      rw [if_pos (by simpa using h)]
      simp [ih]
    · rw [if_neg h]
      obtain ⟨c, cs, hr⟩ : ∃ c cs, splitAtImage rest = c :: cs := by
        cases hsp : splitAtImage rest with
        | nil => exact absurd hsp (splitAtImage_ne_nil rest)
        | cons c cs => exact ⟨c, cs, rfl⟩
      rw [hr] at ih ⊢
      simp only [List.headI, List.tail_cons, List.length_cons, List.filter_cons]
      rw [if_neg (by simpa using h)]
      simpa using ih

theorem splitAtImage_sum (pairs : List (ℤ × ℤ)) :
    ((splitAtImage pairs).map List.length).sum +
      (pairs.filter (fun p => decide (p.1 = Arch.IMAGE_TOKEN_INDEX))).length =
      pairs.length := by
  induction pairs with
  | nil => rfl
  | cons p rest ih =>
    obtain ⟨t, l⟩ := p
    simp only [splitAtImage]
    by_cases h : t = Arch.IMAGE_TOKEN_INDEX
    · rw [if_pos h]
      simp only [List.map_cons, List.sum_cons, List.length_nil, List.filter_cons,
        List.length_cons]
      rw [if_pos (by simpa using h)]
      simp only [List.length_cons]
      omega
    · rw [if_neg h]
      obtain ⟨c, cs, hr⟩ : ∃ c cs, splitAtImage rest = c :: cs := by
        cases hsp : splitAtImage rest with
        | nil => exact absurd hsp (splitAtImage_ne_nil rest)
        | cons c cs => exact ⟨c, cs, rfl⟩
      rw [hr] at ih ⊢
      simp only [List.headI, List.tail_cons, List.map_cons, List.sum_cons,
        List.length_cons, List.filter_cons]
      rw [if_neg (by simpa using h)]
      simp only [List.map_cons, List.sum_cons] at ih
      omega

/-- C2: for a token sequence with exactly two image placeholders fused with
feature blocks of lengths 5 and 7, the fused sequence length before
padding/truncation equals the number of non-placeholder tokens plus
`5 + 7`, and every position contributed by an image-feature block carries
the ignore-label sentinel. -/
theorem C2_fusion_token_accounting {α : Type} (pairs : List (ℤ × ℤ)) (b1 b2 : List α)
    (h2 : (pairs.filter (fun p => decide (p.1 = Arch.IMAGE_TOKEN_INDEX))).length = 2)
    (h5 : b1.length = 5) (h7 : b2.length = 7) :
    (fuseSample pairs [b1, b2] 0).length =
      (pairs.filter (fun p => decide (¬ p.1 = Arch.IMAGE_TOKEN_INDEX))).length + 5 + 7 ∧
    ∀ q ∈ fuseSample pairs [b1, b2] 0, q.1.isRight = true → q.2 = Arch.IGNORE_INDEX := by
  have hlen3 : (splitAtImage pairs).length = 3 := by
    rw [splitAtImage_length, h2]
  obtain ⟨c0, c1, c2, hc⟩ := List.length_eq_three.mp hlen3
  have hsum := splitAtImage_sum pairs
  rw [hc, h2] at hsum
  simp only [List.map_cons, List.map_nil, List.sum_cons, List.sum_nil] at hsum
  have hfuse : fuseSample pairs [b1, b2] 0 =
      c0.map (fun p => (Sum.inl p.1, p.2)) ++
        (b1.map (fun r => (Sum.inr r, Arch.IGNORE_INDEX)) ++
          (c1.map (fun p => (Sum.inl p.1, p.2)) ++
            (b2.map (fun r => (Sum.inr r, Arch.IGNORE_INDEX)) ++
              c2.map (fun p => (Sum.inl p.1, p.2))))) := by
    rw [fuseSample, if_neg (by omega), hc]
    simp only [interleave, getFeat]
    norm_num
  have hcount : (pairs.filter (fun p => decide (¬ p.1 = Arch.IMAGE_TOKEN_INDEX))).length =
      c0.length + c1.length + c2.length := by
    have htot := List.length_eq_countP_add_countP
      (fun p : ℤ × ℤ => decide (p.1 = Arch.IMAGE_TOKEN_INDEX)) pairs
    rw [List.countP_eq_length_filter, List.countP_eq_length_filter, h2] at htot
    have hcong : pairs.filter
        (fun a => decide (¬ (fun p : ℤ × ℤ => decide (p.1 = Arch.IMAGE_TOKEN_INDEX)) a = true)) =
        pairs.filter (fun p => decide (¬ p.1 = Arch.IMAGE_TOKEN_INDEX)) := by
      apply List.filter_congr
      intro a _
      simp
    rw [hcong] at htot
    omega
  constructor
  · rw [hfuse, hcount]
    simp [h5, h7]
    omega
  · intro q hq hright
    rw [hfuse] at hq
    simp only [List.mem_append] at hq
    rcases hq with hq | hq | hq | hq | hq
    · rcases List.mem_map.mp hq with ⟨p, _, rfl⟩
      simp at hright
    · rcases List.mem_map.mp hq with ⟨r, _, rfl⟩
      rfl
    · rcases List.mem_map.mp hq with ⟨p, _, rfl⟩
      simp at hright
    · rcases List.mem_map.mp hq with ⟨r, _, rfl⟩
      rfl
    · rcases List.mem_map.mp hq with ⟨p, _, rfl⟩
      simp at hright

/-- Witness for C2 on a concrete four-token sequence holding two placeholders
and feature blocks of lengths 5 and 7. -/
theorem C2_witness :
    (fuseSample [((-200 : ℤ), (0 : ℤ)), (1, 2), (-200, 0), (3, 4)]
      [List.replicate 5 (9 : ℤ), List.replicate 7 8] 0).length = 2 + 5 + 7 := by
  have h := C2_fusion_token_accounting
    [((-200 : ℤ), (0 : ℤ)), (1, 2), (-200, 0), (3, 4)]
    (List.replicate 5 (9 : ℤ)) (List.replicate 7 8)
    (by decide) (by decide) (by decide)
  rw [h.1]
  decide

end Fuse

namespace Arch

theorem pyIndex_append (v : ℤ) (pre rest : List ℤ) (h : v ∉ pre) :
    pyIndex v (pre ++ rest) = (pyIndex v rest).map (· + pre.length) := by
  induction pre with
  | nil =>
    simp only [List.nil_append, List.length_nil]
    cases pyIndex v rest <;> simp
  | cons a t ih =>
    have ha : a ≠ v := fun hc => h (by simp [hc])
    rw [List.cons_append, pyIndex, if_neg ha, ih (fun hc => h (List.mem_cons_of_mem _ hc))]
    cases pyIndex v rest <;> simp <;> omega

theorem pyIndex_self (v : ℤ) (rest : List ℤ) : pyIndex v (v :: rest) = some 0 := by
  rw [pyIndex, if_pos rfl]

/-- C8 (amended): the query span extracted by `extract_user_query_tokens`
starts two positions after the image placeholder — it deliberately skips one
extra token ("the space token", per the code's own comment) — and ends just
before the first end-of-turn marker after the placeholder; so it is the
strictly-between span with its first element removed. -/
theorem C8_query_span (pre mid post : List ℤ)
    (hpre : Arch.IMAGE_TOKEN_INDEX ∉ pre)
    (hmid : Arch.IM_END_TOKEN_ID ∉ mid) :
    extract_user_query_tokens
      (pre ++ Arch.IMAGE_TOKEN_INDEX :: (mid ++ Arch.IM_END_TOKEN_ID :: post)) =
      mid.drop 1 := by
  have hne : Arch.IMAGE_TOKEN_INDEX ≠ Arch.IM_END_TOKEN_ID := by decide
  have h1 : pyIndexFrom
      (pre ++ Arch.IMAGE_TOKEN_INDEX :: (mid ++ Arch.IM_END_TOKEN_ID :: post))
      Arch.IMAGE_TOKEN_INDEX 0 = some pre.length := by
    rw [pyIndexFrom, List.drop_zero, pyIndex_append _ _ _ hpre, pyIndex_self]
    simp
  have hdrop : (pre ++ Arch.IMAGE_TOKEN_INDEX :: (mid ++ Arch.IM_END_TOKEN_ID :: post)).drop
      pre.length = Arch.IMAGE_TOKEN_INDEX :: (mid ++ Arch.IM_END_TOKEN_ID :: post) := by
    rw [List.drop_left]
  have h2 : pyIndexFrom
      (pre ++ Arch.IMAGE_TOKEN_INDEX :: (mid ++ Arch.IM_END_TOKEN_ID :: post))
      Arch.IM_END_TOKEN_ID pre.length = some (pre.length + 1 + mid.length) := by
    rw [pyIndexFrom, hdrop, pyIndex, if_neg hne, pyIndex_append _ _ _ hmid, pyIndex_self]
    simp
    omega
  rw [extract_user_query_tokens, h1]
  dsimp only
  rw [h2]
  dsimp only
  have hd2 : (pre ++ Arch.IMAGE_TOKEN_INDEX :: (mid ++ Arch.IM_END_TOKEN_ID :: post)).drop
      (pre.length + 2) = (mid ++ Arch.IM_END_TOKEN_ID :: post).drop 1 := by
    have hsplit : pre ++ Arch.IMAGE_TOKEN_INDEX :: (mid ++ Arch.IM_END_TOKEN_ID :: post) =
        (pre ++ [Arch.IMAGE_TOKEN_INDEX]) ++ (mid ++ Arch.IM_END_TOKEN_ID :: post) := by
      simp
    rw [hsplit, List.drop_append_eq_append_drop]
    have e1 : (pre ++ [Arch.IMAGE_TOKEN_INDEX]).drop (pre.length + 2) = ([] : List ℤ) := by
      apply List.drop_eq_nil_of_le
      simp
    have e2 : pre.length + 2 - (pre ++ [Arch.IMAGE_TOKEN_INDEX]).length = 1 := by
      simp
    rw [e1, e2, List.nil_append]
  rw [hd2]
  cases mid with
  | nil =>
    rw [show pre.length + 1 + ([] : List ℤ).length - (pre.length + 2) = 0 from by
      simp]
    simp
  | cons m ms =>
    rw [List.length_cons]
    rw [show pre.length + 1 + (ms.length + 1) - (pre.length + 2) = ms.length from by omega]
    rw [List.cons_append, List.drop_one, List.tail_cons, List.drop_one, List.tail_cons]
    simp

/-- Counterexample to C8 as stated: on the sequence
`[-200, 9, 7, 151645]` the strictly-between span is `[9, 7]`, but the code
returns only `[7]` because it slices from `idx_image + 2`. -/
theorem C8_counterexample :
    extract_user_query_tokens [-200, 9, 7, 151645] = [7] ∧
    specUserQuerySpan [-200, 9, 7, 151645] = [9, 7] ∧
    extract_user_query_tokens [-200, 9, 7, 151645] ≠
      specUserQuerySpan [-200, 9, 7, 151645] := by
  refine ⟨?_, ?_, ?_⟩ <;> decide

/-- Witness for the amended C8 on a concrete sequence. -/
theorem C8_witness : extract_user_query_tokens [5, -200, 9, 7, 151645, 1] = [7] := by
  have h := C8_query_span [5] [9, 7] [1] (by decide) (by decide)
  simpa using h

theorem linspaceIdx_getD (F n j : ℕ) (hj : j < n) :
    (linspaceIdx F n).getD j 0 = if n = 1 then 0 else j * (F - 1) / (n - 1) := by
  rw [linspaceIdx, List.getD_eq_getElem _ _ (by simpa using hj), List.getElem_map,
    List.getElem_range]

/-- C10: `uniform_sample_frames` returns its input unchanged when the frame
count is at most `num_samples`; otherwise (for `num_samples ≥ 2`) it returns
exactly `num_samples` frames taken at the floors of `num_samples` evenly
spaced rational points spanning `[0, frame_count - 1]`, in strictly
ascending temporal order, so the first and last frames are always
included. -/
theorem C10_uniform_sample_frames {α : Type} [Inhabited α] (frames : List α) (n : ℕ) :
    (frames.length ≤ n → uniform_sample_frames frames n = frames) ∧
    (2 ≤ n → n < frames.length →
      (uniform_sample_frames frames n).length = n ∧
      (∀ j, j < n → (uniform_sample_frames frames n).getD j default =
        frames.getD ((linspaceIdx frames.length n).getD j 0) default) ∧
      (∀ j, j < n → (linspaceIdx frames.length n).getD j 0 =
        ⌊((j * (frames.length - 1) : ℕ) : ℚ) / (((n - 1 : ℕ) : ℕ) : ℚ)⌋₊) ∧
      List.Chain' (· < ·) (linspaceIdx frames.length n) ∧
      (linspaceIdx frames.length n).getD 0 0 = 0 ∧
      (linspaceIdx frames.length n).getD (n - 1) 0 = frames.length - 1) := by
  constructor
  · intro h
    rw [uniform_sample_frames, if_neg (by omega)]
  · intro hn2 hnF
    have hn1 : n ≠ 1 := by omega
    have hpos : 0 < n - 1 := by omega
    refine ⟨?_, ?_, ?_, ?_, ?_, ?_⟩
    · rw [uniform_sample_frames, if_pos hnF]
      simp [linspaceIdx]
    · intro j hj
      rw [uniform_sample_frames, if_pos hnF]
      rw [List.getD_eq_getElem _ _ (by simp [linspaceIdx]; omega), List.getElem_map]
      congr 1
      rw [List.getD_eq_getElem _ _ (by simp [linspaceIdx]; omega)]
    · intro j hj
      rw [linspaceIdx_getD _ _ _ hj, if_neg hn1]
      rw [Nat.floor_div_nat, Nat.floor_natCast]
    · rw [List.chain'_iff_get]
      intro i hi
      simp only [linspaceIdx, List.length_map, List.length_range] at hi
      rw [List.get_eq_getElem, List.get_eq_getElem]
      simp only [linspaceIdx, List.getElem_map, List.getElem_range]
      rw [if_neg hn1, if_neg hn1]
      have hstep : i * (frames.length - 1) + (n - 1) ≤ (i + 1) * (frames.length - 1) := by
        have : n - 1 ≤ frames.length - 1 := by omega
        nlinarith
      calc i * (frames.length - 1) / (n - 1)
          < i * (frames.length - 1) / (n - 1) + 1 := by omega
        _ = (i * (frames.length - 1) + (n - 1)) / (n - 1) := by
            rw [Nat.add_div_right _ hpos]
        _ ≤ (i + 1) * (frames.length - 1) / (n - 1) := Nat.div_le_div_right hstep
    · rw [linspaceIdx_getD _ _ _ (by omega), if_neg hn1]
      simp
    · rw [linspaceIdx_getD _ _ _ (by omega), if_neg hn1]
      rw [Nat.mul_div_cancel_left _ hpos]

/-- Witness for C10 on five integer frames sampled down to three. -/
theorem C10_witness :
    (uniform_sample_frames ([10, 20, 30, 40, 50] : List ℤ) 3).length = 3 ∧
    (linspaceIdx 5 3).getD 0 0 = 0 ∧ (linspaceIdx 5 3).getD 2 0 = 4 := by
  have h := (C10_uniform_sample_frames ([10, 20, 30, 40, 50] : List ℤ) 3).2
    (by norm_num) (by decide)
  refine ⟨h.1, ?_, ?_⟩
  · simpa using h.2.2.2.2.1
  · simpa using h.2.2.2.2.2

end Arch

namespace FX

/-- Counterexample to C9 as stated: for a video with average fps `29.9` and
59 frames, the code truncates `int(fps) = 29` and produces two sampling
points at source frames `[0, 29]`, while the claim's `round(fps) = 30` would
give a single sampling point `[0]`. -/
theorem C9_counterexample :
    sampledFrameIndices 59 (299 / 10) = [0, 29] ∧
    spec_sampledFrameIndices 59 (299 / 10) = [0] ∧
    sampledFrameIndices 59 (299 / 10) ≠ spec_sampledFrameIndices 59 (299 / 10) := by
  have hfl : ⌊(299 : ℚ) / 10⌋ = 29 := by
    rw [Int.floor_eq_iff]
    constructor <;> norm_num
  have hrd : round ((299 : ℚ) / 10) = 30 := by
    rw [round_eq]
    rw [show (299 : ℚ) / 10 + 1 / 2 = 304 / 10 from by norm_num]
    rw [Int.floor_eq_iff]
    constructor <;> norm_num
  have ha : sampledFrameIndices 59 (299 / 10) = [0, 29] := by
    rw [sampledFrameIndices, frame_nums, truncFps, hfl]
    decide
  have hb : spec_sampledFrameIndices 59 (299 / 10) = [0] := by
    rw [spec_sampledFrameIndices, spec_frame_nums, hrd]
    decide
  refine ⟨ha, hb, ?_⟩
  rw [ha, hb]
  decide

/-- C9 (amended): the number of one-second sampling points is
`floor(frame_count / int(fps))`, where `int` truncates toward zero (not
`round`: see `C9_counterexample`), and the recorded source-frame index for
the `j`-th point is `j * int(fps)`; in particular fps 30 with 90 frames
yields exactly the three points `[0, 30, 60]`. -/
theorem C9_sampling_points (fc : ℕ) (fps : ℚ) (h1 : 1 ≤ ⌊fps⌋) :
    (sampledFrameIndices fc fps).length * truncFps fps ≤ fc ∧
    fc < ((sampledFrameIndices fc fps).length + 1) * truncFps fps ∧
    (∀ j, j < (sampledFrameIndices fc fps).length →
      (sampledFrameIndices fc fps).getD j 0 = j * truncFps fps) ∧
    sampledFrameIndices 90 30 = [0, 30, 60] := by
  have ht : 1 ≤ truncFps fps := by
    rw [truncFps]
    omega
  have hlen : (sampledFrameIndices fc fps).length = fc / truncFps fps := by
    simp [sampledFrameIndices, frame_nums]
  refine ⟨?_, ?_, ?_, ?_⟩
  · rw [hlen]
    exact Nat.div_mul_le_self fc _
  · rw [hlen]
    have hd := Nat.div_add_mod fc (truncFps fps)
    have hm := Nat.mod_lt fc (show 0 < truncFps fps from ht)
    calc fc = truncFps fps * (fc / truncFps fps) + fc % truncFps fps := hd.symm
      _ < truncFps fps * (fc / truncFps fps) + truncFps fps := by omega
      _ = (fc / truncFps fps + 1) * truncFps fps := by ring
  · intro j hj
    rw [hlen] at hj
    have hj2 : j < frame_nums fc fps := by
      rw [frame_nums]
      exact hj
    rw [sampledFrameIndices, List.getD_eq_getElem _ _ (by simpa using hj2),
      List.getElem_map, List.getElem_range]
  · have h30 : truncFps 30 = 30 := by
      rw [truncFps, show ⌊(30 : ℚ)⌋ = 30 from by norm_num]
      rfl
    rw [sampledFrameIndices, frame_nums, h30]
    decide

/-- Witness for the amended C9: the claim's own concrete instance. -/
theorem C9_witness : sampledFrameIndices 90 30 = [0, 30, 60] :=
  (C9_sampling_points 90 30 (by norm_num)).2.2.2

end FX

namespace Seg

theorem cal_depth_const : cal_depth_score (List.replicate 39 1) = List.replicate 39 0 := by
  apply List.ext_getElem
  · simp [cal_depth_score]
  intro n h1 h2
  have hn : n < 39 := by simpa [cal_depth_score] using h1
  simp only [cal_depth_score, List.getElem_map, List.getElem_range]
  rw [← List.getD_eq_getElem _ 0 h2]
  rw [show (List.replicate 39 (1 : ℚ)).getD n 0 = 1 from by
    rw [List.getD_eq_getElem _ _ (by simpa using hn)]
    rw [List.getElem_replicate]]
  rw [show (List.replicate 39 (0 : ℚ)).getD n 0 = 0 from by
    rw [List.getD_eq_getElem _ _ (by simpa using hn)]
    rw [List.getElem_replicate]]
  rw [List.take_replicate, min_eq_left (le_of_lt hn), List.reverse_replicate,
    scanPeak_replicate, List.drop_replicate, scanPeak_replicate]
  norm_num

theorem threshIndices_const : threshIndices (List.replicate 39 0) = [] := by
  rw [threshIndices]
  apply List.filter_eq_nil_iff.mpr
  intro i hi
  simp only [List.length_replicate] at hi
  have hi39 : i < 39 := List.mem_range.mp hi
  rw [show (List.replicate 39 (0 : ℚ)).getD i 0 = 0 from by
    rw [List.getD_eq_getElem _ _ (by simpa using hi39)]
    rw [List.getElem_replicate]]
  simp [exceedsThresh, mean, List.sum_replicate]

theorem select_const : selectBoundaries (cal_depth_score (List.replicate 39 1)) = [] := by
  rw [cal_depth_const]
  simp only [selectBoundaries, threshIndices_const]
  norm_num

theorem adjustedTagged_const :
    adjustedTagged 40 (List.replicate 39 1) = [(0, Origin.cand), (40, Origin.cand)] := by
  have hprep : adjPrepare 40 [] = [0, 40] := by
    simp only [adjPrepare]
    norm_num
    exact sortDedupZ_eq_self _ (by decide)
  rw [adjustedTagged, if_neg (by norm_num : ¬(40 = 1)), select_const, hprep]
  decide

/-- Witness for the amended C4 at a 40-frame constant-similarity input: the
dropLast membership hypothesis is discharged at the leading boundary and the
tag erasure is observed concretely. -/
theorem C4_witness :
    ((adjustedTagged 40 (List.replicate 39 1)).dropLast.headI).2 ≠ Origin.merged ∧
    (adjustedTagged 40 (List.replicate 39 1)).map Prod.fst =
      adjusted_segment 40 (List.replicate 39 1) := by
  have h := C4_adjusted_spacing 40 (List.replicate 39 1)
  refine ⟨h.2.2 _ ?_, h.1⟩
  rw [adjustedTagged_const]
  decide

end Seg
